import Mathlib

/-!
Verification development for the forensic fund-flow audit engine
(FIFO tracker `计算.py`, Balance-Method tracker `balance_method_tracker.py`,
investment-pool manager `investment_manager.py`, flow-integrity validator
`flow_integrity_validator.py`).  Money is modelled by exact rationals; the
two-decimal rounding of the source is modelled by round-half-to-even on
hundredths, with the source's 1e-8 clamp to zero.  Chinese identifiers of the
source are transliterated to English (Lean identifiers cannot contain CJK);
each definition's doc comment names the source symbol it embeds.
-/

/-- Round half to even on a rational (the rounding mode of Python's `round`). -/
def roundHalfEven (x : ℚ) : ℤ :=
  if x - ⌊x⌋ < 1/2 then ⌊x⌋
  else if 1/2 < x - ⌊x⌋ then ⌊x⌋ + 1
  else if ⌊x⌋ % 2 = 0 then ⌊x⌋ else ⌊x⌋ + 1

/-- `格式化数值` / `Config.format_number`: values smaller than 1e-8 in absolute
value collapse to 0, everything else is rounded to two decimal places. -/
def formatNumber (v : ℚ) : ℚ :=
  if |v| < 1/100000000 then 0 else (roundHalfEven (v * 100) : ℚ) / 100

/-- A value as stored in a cumulative counter: non-negative and an integer
number of hundredths (the image of the formatter on non-negatives). -/
def Formatted (q : ℚ) : Prop := 0 ≤ q ∧ ∃ n : ℤ, q = (n : ℚ) / 100

/-! ## Classification primitives (`legacy/config.py`, `计算.py`) -/

/-- Python `needle in haystack` on strings (substring containment). -/
def strContains (needle : List Char) : List Char → Bool
  | [] => needle.isEmpty
  | c :: rest => needle.isPrefixOf (c :: rest) || strContains needle rest

/-- Python `str.strip()`: drop leading and trailing whitespace. -/
def stripStr (s : List Char) : List Char :=
  ((s.dropWhile Char.isWhitespace).reverse.dropWhile Char.isWhitespace).reverse

/-- `attr.split('-')[0]`: the segment before the first `'-'`. -/
def beforeDash (s : List Char) : List Char := s.takeWhile (fun c => c ≠ '-')

/-- `Config.INVESTMENT_PREFIXES`. -/
def investKinds : List (List Char) :=
  ["理财".data, "投资".data, "保险".data, "关联银行卡".data, "资金池".data]

/-- The product-kind list of `计算.py 解析投资产品编号` (lacks `资金池`). -/
def investKindsLegacy : List (List Char) :=
  ["理财".data, "投资".data, "保险".data, "关联银行卡".data]

/-- `Config.PERSONAL_KEYWORDS`. -/
def personalKeywords : List (List Char) := ["个人".data, "个人应收".data, "个人应付".data]

/-- `Config.COMPANY_KEYWORDS`. -/
def companyKeywords : List (List Char) := ["公司".data, "公司应收".data, "公司应付".data]

/-- `Config.is_investment_product`. -/
def isInvestmentProduct (attr : List Char) : Bool :=
  attr.contains '-' && investKinds.contains (beforeDash attr)

/-- `Config.is_personal_fund`. -/
def isPersonalFund (attr : List Char) : Bool :=
  personalKeywords.any (fun k => strContains k (stripStr attr))

/-- `Config.is_company_fund`. -/
def isCompanyFund (attr : List Char) : Bool :=
  companyKeywords.any (fun k => strContains k (stripStr attr))

/-- The three attribute classes returned by `判断资金属性类型`. -/
inductive AttrClass
  | personal
  | company
  | other
deriving DecidableEq, Repr

/-- `BehaviorAnalyzer._判断资金属性类型` (keyword sets from `Config`). -/
def classifyAttr (attr : List Char) : AttrClass :=
  if isPersonalFund attr then .personal
  else if isCompanyFund attr then .company
  else .other

/-- `计算.py FIFO资金追踪器.判断资金属性类型` (bare `个人`/`公司` containment). -/
def classifyAttrLegacy (attr : List Char) : AttrClass :=
  if strContains ("个人".data) (stripStr attr) then .personal
  else if strContains ("公司".data) (stripStr attr) then .company
  else .other

/-- `计算.py FIFO资金追踪器.解析投资产品编号`: the full label is the pool key
when the part before the first dash is a recognized product kind. -/
def parseInvestmentId (attr : List Char) : Option (List Char) :=
  if attr.contains '-' && investKindsLegacy.contains (beforeDash attr) then some attr
  else none

/-! ## Behavior labels

The source renders behavior descriptions as formatted strings; here each
constructor mirrors one f-string template of the source, carrying the numeric
and textual arguments that the template interpolates. -/

/-- One clause of a joined `行为描述` list. -/
inductive Clause
  | misuse (x : ℚ)          -- "挪用：X"
  | personalPay (x : ℚ)     -- "个人支付：Y"
  | advance (x : ℚ)         -- "垫付：Y"
  | companyPay (x : ℚ)      -- "公司支付：X"
  | investMisuse (x : ℚ)    -- "投资挪用：X"
  | personalInvest (x : ℚ)  -- "个人投资：Y"
deriving DecidableEq, Repr

/-- A behavior label (`行为性质`). -/
inductive Behavior
  | empty                                               -- ""
  | noTx                                                -- "无交易"
  | poolEmptyAmt (x : ℚ)                                -- "资金池已空，无法支出X"
  | poolEmptyBare                                       -- "资金池已空"
  | clauses (cs : List Clause)                          -- "；".join(行为描述)
  | gap (base : Behavior) (x : ℚ)                       -- base + "；资金缺口：X"
  | inflowPersonal (x : ℚ)                              -- "个人资金流入：X"
  | inflowCompany (x : ℚ)                               -- "公司资金流入：X"
  | inflowMixed (p c : ℚ)                               -- "混合资金流入：个人p，公司c"
  | purchaseWrap (pre pid : List Char) (inner : Behavior)  -- "{前缀}申购-{编号}：…"
  | noPurchaseRecord (pre pid : List Char) (x : ℚ)      -- "…（无申购记录）"
  | redemptionF (pre pid : List Char) (pBack cBack profit pProf cProf illicit : ℚ)
  | redemptionB (pre pid : List Char) (pBack cBack : ℚ) -- balance-method redemption
  | redemptionM (pid : List Char) (pBack cBack profit : ℚ) -- investment_manager
  | productMissing (pid : List Char)                    -- "错误：投资产品X不存在"
  | poolNeverValid (pid : List Char)                    -- "错误：…从未有过有效资金池…"
deriving DecidableEq, Repr

/-! ## FIFO tracker (`计算.py` `FIFO资金追踪器`) -/

/-- Owner tag of a deposit slice (`'个人'` / `'公司'`). -/
inductive Owner
  | personal
  | company
deriving DecidableEq, Repr

/-- One entry of the FIFO inflow queue: `(金额, 类型, 时间)`. -/
structure Slice where
  amt : ℚ
  owner : Owner
  time : Option ℕ
deriving DecidableEq, Repr

/-- One investment pool of the FIFO tracker / `InvestmentProductManager`:
`{'个人金额', '公司金额', '总金额', '累计申购', '累计赎回', '最新个人占比', '最新公司占比'}`. -/
structure PoolF where
  personalAmt : ℚ
  companyAmt : ℚ
  totalAmt : ℚ
  cumPurchase : ℚ
  cumRedemption : ℚ
  latestPersonalShare : ℚ
  latestCompanyShare : ℚ
deriving DecidableEq, Repr

/-- A fresh pool as built by `创建投资产品` / the tracker's inline dict literal. -/
def PoolF.fresh : PoolF := ⟨0, 0, 0, 0, 0, 0, 0⟩

/-- Insertion-ordered dictionary lookup (`产品编号 in self.投资产品资金池` / `[...]`). -/
def findPool : List (List Char × PoolF) → List Char → Option PoolF
  | [], _ => none
  | (k, v) :: rest, key => if k = key then some v else findPool rest key

/-- Insertion-ordered dictionary write: update in place, or append a new key. -/
def setPool : List (List Char × PoolF) → List Char → PoolF → List (List Char × PoolF)
  | [], key, v => [(key, v)]
  | (k, v') :: rest, key, v =>
      if k = key then (key, v) :: rest else (k, v') :: setPool rest key v

/-- The mutable state of `FIFO资金追踪器`. -/
structure FifoState where
  personalBal : ℚ      -- 个人余额
  companyBal : ℚ       -- 公司余额
  pools : List (List Char × PoolF)  -- 投资产品资金池（插入序字典）
  queue : List Slice   -- 资金流入队列
  initialized : Bool   -- 已初始化
  cumMisuse : ℚ        -- 累计挪用金额
  cumAdvance : ℚ       -- 累计垫付金额
  cumIllicit : ℚ       -- 累计非法所得
  personalProfit : ℚ   -- 总计个人分配利润
  companyProfit : ℚ    -- 总计公司分配利润
deriving DecidableEq, Repr

/-- The freshly constructed tracker (`__init__`). -/
def FifoState.init : FifoState := ⟨0, 0, [], [], false, 0, 0, 0, 0, 0⟩

/-- `初始化余额`. -/
def FifoState.initBalance (s : FifoState) (amt : ℚ) (otype : Owner) : FifoState :=
  if s.initialized = false ∧ 0 < amt then
    match otype with
    | .company =>
        { s with companyBal := amt, queue := s.queue ++ [⟨amt, .company, none⟩],
                 initialized := true }
    | .personal =>
        { s with personalBal := amt, queue := s.queue ++ [⟨amt, .personal, none⟩],
                 initialized := true }
  else s

/-- `处理资金流入`. -/
def FifoState.processInflow (s : FifoState) (amt : ℚ) (attr : List Char) (t : Option ℕ) :
    FifoState × ℚ × ℚ × Behavior :=
  if amt ≤ 0 then (s, 0, 0, .empty)
  else
    let astr := stripStr attr
    if strContains ("个人应收".data) astr || strContains ("个人应付".data) astr then
      ({ s with personalBal := s.personalBal + amt,
                queue := s.queue ++ [⟨amt, .personal, t⟩] },
       1, 0, .inflowPersonal amt)
    else if strContains ("公司应收".data) astr || strContains ("公司应付".data) astr then
      ({ s with companyBal := s.companyBal + amt,
                queue := s.queue ++ [⟨amt, .company, t⟩] },
       0, 1, .inflowCompany amt)
    else
      let total := s.personalBal + s.companyBal
      if total = 0 then
        ({ s with personalBal := s.personalBal + amt / 2,
                  companyBal := s.companyBal + amt / 2,
                  queue := s.queue ++ [⟨amt / 2, .personal, t⟩, ⟨amt / 2, .company, t⟩] },
         1/2, 1/2, .inflowMixed (amt / 2) (amt / 2))
      else
        let pShare := s.personalBal / total
        let cShare := s.companyBal / total
        let pAmt := amt * pShare
        let cAmt := amt * cShare
        ({ s with personalBal := s.personalBal + pAmt,
                  companyBal := s.companyBal + cAmt,
                  queue := s.queue ++ [⟨pAmt, .personal, t⟩, ⟨cAmt, .company, t⟩] },
         pShare, cShare, .inflowMixed pAmt cAmt)

/-- The FIFO deduction `while` loop shared verbatim by `处理资金流出_普通` and
`处理资金流出_投资`: consume head slices until the remaining target is covered,
pushing back the unconsumed part of a partially used slice.  Returns
`(个人扣除, 公司扣除, 个人余额, 公司余额, queue)`. -/
def consumeQueue : List Slice → ℚ → ℚ → ℚ → ℚ → ℚ → ℚ × ℚ × ℚ × ℚ × List Slice
  | [], _, pBal, cBal, pDed, cDed => (pDed, cDed, pBal, cBal, [])
  | e :: rest, rem, pBal, cBal, pDed, cDed =>
    if rem ≤ 0 then (pDed, cDed, pBal, cBal, e :: rest)
    else if e.amt ≤ rem then
      match e.owner with
      | .personal =>
          consumeQueue rest (rem - e.amt) (max 0 (pBal - e.amt)) cBal (pDed + e.amt) cDed
      | .company =>
          consumeQueue rest (rem - e.amt) pBal (max 0 (cBal - e.amt)) pDed (cDed + e.amt)
    else
      match e.owner with
      | .personal =>
          (pDed + rem, cDed, max 0 (pBal - rem), cBal, ⟨e.amt - rem, .personal, e.time⟩ :: rest)
      | .company =>
          (pDed, cDed + rem, pBal, max 0 (cBal - rem), ⟨e.amt - rem, .company, e.time⟩ :: rest)

/-- `分析行为性质` (`计算.py`): builds the clause list and accrues misuse /
advance into the tracker's counters. -/
def FifoState.analyzeBehavior (s : FifoState) (cls : AttrClass) (pDed cDed tot : ℚ) :
    FifoState × Behavior :=
  if tot ≤ 0 then (s, .noTx)
  else
    match cls with
    | .personal =>
        let s1 := if 0 < cDed then
            { s with cumMisuse := formatNumber (s.cumMisuse + cDed) } else s
        let cs := (if 0 < cDed then [Clause.misuse cDed] else []) ++
                  (if 0 < pDed then [Clause.personalPay pDed] else [])
        (s1, .clauses cs)
    | .company =>
        let s1 := if 0 < pDed then
            { s with cumAdvance := formatNumber (s.cumAdvance + pDed) } else s
        let cs := (if 0 < pDed then [Clause.advance pDed] else []) ++
                  (if 0 < cDed then [Clause.companyPay cDed] else [])
        (s1, .clauses cs)
    | .other =>
        let cs := (if 0 < pDed then [Clause.personalPay pDed] else []) ++
                  (if 0 < cDed then [Clause.companyPay cDed] else [])
        (s, .clauses cs)

/-- `处理资金流出_普通`. -/
def FifoState.processOutflowOrdinary (s : FifoState) (amt : ℚ) (attr : List Char)
    (t : Option ℕ) : FifoState × ℚ × ℚ × Behavior :=
  if amt ≤ 0 then (s, 0, 0, .empty)
  else
    let total := s.personalBal + s.companyBal
    if total ≤ 0 then (s, 0, 0, .poolEmptyAmt amt)
    else
      let effective := min amt total        -- 实际扣除金额
      let shortfall := amt - effective      -- 资金缺口
      -- 修复：FIFO队列为空但余额不为空时重新构建队列
      let q0 := if s.queue = [] ∧ 0 < total then
          (if 0 < s.personalBal then [(⟨s.personalBal, .personal, t⟩ : Slice)] else []) ++
          (if 0 < s.companyBal then [(⟨s.companyBal, .company, t⟩ : Slice)] else [])
        else s.queue
      match consumeQueue q0 effective s.personalBal s.companyBal 0 0 with
      | (pDed, cDed, pBal', cBal', q') =>
        let pFrac := pDed / amt             -- 占比基于原始金额
        let cFrac := cDed / amt
        let s1 := { s with personalBal := pBal', companyBal := cBal', queue := q' }
        match s1.analyzeBehavior (classifyAttrLegacy attr) pDed cDed amt with
        | (s2, base) =>
          let behavior := if 0 < shortfall then .gap base shortfall else base
          (s2, pFrac, cFrac, behavior)

/-- `处理资金流出_投资`: the requested amount is clamped to the available total,
the split fractions are relative to the total actually deducted, and the
company-funded part accrues to `累计挪用金额`. -/
def FifoState.processOutflowInvest (s : FifoState) (amt : ℚ) (_t : Option ℕ) :
    FifoState × ℚ × ℚ × Behavior :=
  if amt ≤ 0 then (s, 0, 0, .empty)
  else
    let total := s.personalBal + s.companyBal
    if total ≤ 0 then (s, 0, 0, .poolEmptyBare)
    else
      let amt' := if total < amt then total else amt
      match consumeQueue s.queue amt' s.personalBal s.companyBal 0 0 with
      | (pDed, cDed, pBal', cBal', q') =>
        let totDed := pDed + cDed
        let pFrac := if 0 < totDed then pDed / totDed else 0
        let cFrac := if 0 < totDed then cDed / totDed else 0
        let s1 := { s with personalBal := pBal', companyBal := cBal', queue := q' }
        let s2 := if 0 < cDed then
            { s1 with cumMisuse := formatNumber (s1.cumMisuse + cDed) } else s1
        let cs := (if 0 < cDed then [Clause.investMisuse cDed] else []) ++
                  (if 0 < pDed then [Clause.personalInvest pDed] else [])
        (s2, pFrac, cFrac, .clauses cs)

/-- `处理资金流出`: dispatch on the investment pattern; for investment labels
run the investment deduction and then update the product pool (reset-on-negative
without any realized-profit history). -/
def FifoState.processOutflow (s : FifoState) (amt : ℚ) (attr : List Char) (t : Option ℕ) :
    FifoState × ℚ × ℚ × Behavior :=
  if amt ≤ 0 then (s, 0, 0, .empty)
  else
    match parseInvestmentId attr with
    | some pid =>
        match s.processOutflowInvest amt t with
        | (s1, pFrac, cFrac, inner) =>
          let pAmt := amt * pFrac
          let cAmt := amt * cFrac
          let info := (findPool s1.pools pid).getD PoolF.fresh
          let info1 :=
            if info.totalAmt < 0 then
              -- 资金池为负数：重置为新申购（无历史记录字段）
              { info with personalAmt := pAmt, companyAmt := cAmt, totalAmt := amt,
                          latestPersonalShare := pFrac, latestCompanyShare := cFrac }
            else
              let newTotal := info.totalAmt + amt
              let base := { info with personalAmt := info.personalAmt + pAmt,
                                      companyAmt := info.companyAmt + cAmt,
                                      totalAmt := newTotal }
              if 0 < newTotal then
                { base with latestPersonalShare := base.personalAmt / newTotal,
                            latestCompanyShare := base.companyAmt / newTotal }
              else base
          let info2 := { info1 with cumPurchase := info1.cumPurchase + amt }
          ({ s1 with pools := setPool s1.pools pid info2 },
           pFrac, cFrac, .purchaseWrap (beforeDash pid) pid inner)
    | none => s.processOutflowOrdinary amt attr t

/-- `处理投资产品赎回` (`计算.py`): split by the latest recorded shares; a pool
with positive balance is reduced by `总金额 × (金额/总金额)` (i.e. by the full
requested amount, with zero computed gain); a pool at or below zero keeps
falling and the whole amount is gain. -/
def FifoState.processRedemption (s : FifoState) (amt : ℚ) (attr : List Char)
    (t : Option ℕ) : FifoState × ℚ × ℚ × Behavior :=
  if amt ≤ 0 then (s, 0, 0, .empty)
  else
    match parseInvestmentId attr with
    | none => (s, 0, 0, .empty)
    | some pid =>
      match findPool s.pools pid with
      | none =>
          -- 无申购记录：按个人应收处理
          ({ s with personalBal := s.personalBal + amt,
                    queue := s.queue ++ [⟨amt, .personal, t⟩] },
           1, 0, .noPurchaseRecord (beforeDash pid) pid amt)
      | some info =>
        let rP := info.latestPersonalShare
        let rC := info.latestCompanyShare
        if rP = 0 ∧ rC = 0 then (s, 0, 0, .poolNeverValid pid)
        else
          let pBack := amt * rP
          let cBack := amt * rC
          let T := info.totalAmt
          let step :=
            if 0 < T then
              let redeemFrac := amt / T         -- 赎回比例（未封顶）
              let cost := T * redeemFrac        -- 对应申购成本
              (({ info with personalAmt := info.personalAmt - info.personalAmt * redeemFrac,
                            companyAmt := info.companyAmt - info.companyAmt * redeemFrac,
                            totalAmt := T - cost } : PoolF), amt - cost)
            else
              (({ info with personalAmt := info.personalAmt - pBack,
                            companyAmt := info.companyAmt - cBack,
                            totalAmt := T - amt } : PoolF), amt)
          let info1 := { step.1 with cumRedemption := step.1.cumRedemption + amt }
          let profit := step.2
          let pProf := if 0 < profit then profit * rP else 0
          let cProf := if 0 < profit then profit * rC else 0
          let illicitRaw := pProf + cProf
          let illicit0 := if |illicitRaw| < 1/100000000 then 0 else illicitRaw
          let illicit := if 0 < profit then formatNumber illicit0 else 0
          let s1 :=
            if 0 < profit then
              { s with cumIllicit := formatNumber (s.cumIllicit + illicit),
                       personalProfit := formatNumber (s.personalProfit + pProf),
                       companyProfit := formatNumber (s.companyProfit + cProf) }
            else s
          let s2 :=
            if 0 < pBack then
              { s1 with personalBal := s1.personalBal + pBack,
                        queue := s1.queue ++ [⟨pBack, .personal, t⟩] }
            else s1
          let s3 :=
            if 0 < cBack then
              { s2 with companyBal := s2.companyBal + cBack,
                        queue := s2.queue ++ [⟨cBack, .company, t⟩] }
            else s2
          ({ s3 with pools := setPool s3.pools pid info1 },
           rP, rC, .redemptionF (beforeDash pid) pid pBack cBack profit pProf cProf illicit)

/-! ## Investment-product manager (`src/models/investment_manager.py`) -/

/-- `InvestmentProductManager.更新投资产品` (contribution).  A negative pool is
reset by overwriting the three amount fields with the new contribution (no
realized-profit history exists on this pool shape); otherwise amounts are
accumulated and the latest shares recomputed from the new total. -/
def imUpdateProduct (pools : List (List Char × PoolF)) (pid : List Char)
    (amt pShare cShare : ℚ) : List (List Char × PoolF) :=
  let info := (findPool pools pid).getD PoolF.fresh
  let pAmt := amt * pShare
  let cAmt := amt * cShare
  let info1 :=
    if info.totalAmt < 0 then
      { info with personalAmt := pAmt, companyAmt := cAmt, totalAmt := amt,
                  latestPersonalShare := pShare, latestCompanyShare := cShare }
    else
      let newTotal := info.totalAmt + amt
      let base := { info with personalAmt := info.personalAmt + pAmt,
                              companyAmt := info.companyAmt + cAmt,
                              totalAmt := newTotal }
      if 0 < newTotal then
        { base with latestPersonalShare := base.personalAmt / newTotal,
                    latestCompanyShare := base.companyAmt / newTotal }
      else base
  setPool pools pid { info1 with cumPurchase := info1.cumPurchase + amt }

/-- `InvestmentProductManager.处理投资产品赎回`.  Returns the updated pool map
and `(个人返还, 公司返还, 收益, 行为性质)`.  A positive pool is reduced by
`总金额 × (金额/总金额)` — the uncapped redemption fraction — so redeeming more
than the balance drives the pool negative with zero computed gain. -/
def imRedemption (pools : List (List Char × PoolF)) (pid : List Char) (amt : ℚ) :
    List (List Char × PoolF) × ℚ × ℚ × ℚ × Behavior :=
  match findPool pools pid with
  | none => (pools, 0, 0, 0, .productMissing pid)
  | some info =>
    let rP := info.latestPersonalShare
    let rC := info.latestCompanyShare
    if rP = 0 ∧ rC = 0 then (pools, 0, 0, 0, .poolNeverValid pid)
    else
      let pBack := amt * rP
      let cBack := amt * rC
      let T := info.totalAmt
      let step :=
        if 0 < T then
          let redeemFrac := amt / T
          let cost := T * redeemFrac
          (({ info with personalAmt := info.personalAmt - info.personalAmt * redeemFrac,
                        companyAmt := info.companyAmt - info.companyAmt * redeemFrac,
                        totalAmt := T - cost } : PoolF), amt - cost)
        else
          (({ info with personalAmt := info.personalAmt - pBack,
                        companyAmt := info.companyAmt - cBack,
                        totalAmt := T - amt } : PoolF), amt)
      let info1 := { step.1 with cumRedemption := step.1.cumRedemption + amt }
      (setPool pools pid info1, pBack, cBack, step.2, .redemptionM pid pBack cBack step.2)

/-! ## Balance-Method tracker (`balance_method_tracker.py`) -/

/-- One investment pool of the Balance-Method tracker: `{'总金额', '个人占比',
'公司占比', '累计申购', '累计赎回', '累计个人金额', '累计公司金额',
'历史盈利记录', '累计已实现盈利'}`. -/
structure PoolB where
  totalAmt : ℚ
  personalShare : ℚ
  companyShare : ℚ
  cumPurchase : ℚ
  cumRedemption : ℚ
  cumPersonalAmt : ℚ
  cumCompanyAmt : ℚ
  resetHist : List (Option ℕ × ℚ)
  cumRealized : ℚ
deriving DecidableEq, Repr

/-- A fresh Balance-Method pool (the inline dict literal of `_更新投资产品资金池`). -/
def PoolB.fresh : PoolB := ⟨0, 0, 0, 0, 0, 0, 0, [], 0⟩

/-- Lookup in the Balance-Method pool dictionary. -/
def findPoolB : List (List Char × PoolB) → List Char → Option PoolB
  | [], _ => none
  | (k, v) :: rest, key => if k = key then some v else findPoolB rest key

/-- Write to the Balance-Method pool dictionary. -/
def setPoolB : List (List Char × PoolB) → List Char → PoolB → List (List Char × PoolB)
  | [], key, v => [(key, v)]
  | (k, v') :: rest, key, v =>
      if k = key then (key, v) :: rest else (k, v') :: setPoolB rest key v

/-- One `场外资金池记录` entry (numeric fields; presentation strings dropped). -/
structure PoolRecord where
  time : Option ℕ
  poolKey : List Char
  inflow : ℚ
  outflow : ℚ
  balAfter : ℚ
  cumPurchase : ℚ
  cumRedemption : ℚ
deriving DecidableEq, Repr

/-- The counters owned by `BehaviorAnalyzer` (separate from the tracker's). -/
structure AnalyzerState where
  cumMisuse : ℚ
  cumAdvance : ℚ
deriving DecidableEq, Repr

/-- `BehaviorAnalyzer.分析行为性质`: clause list plus accrual into the
analyzer's own counters, classifying via the `Config` keyword sets. -/
def analyzeBehaviorB (a : AnalyzerState) (attr : List Char) (pDed cDed tot : ℚ) :
    AnalyzerState × Behavior :=
  if tot ≤ 0 then (a, .noTx)
  else
    match classifyAttr attr with
    | .personal =>
        let a1 := if 0 < cDed then
            { a with cumMisuse := formatNumber (a.cumMisuse + cDed) } else a
        let cs := (if 0 < cDed then [Clause.misuse cDed] else []) ++
                  (if 0 < pDed then [Clause.personalPay pDed] else [])
        (a1, .clauses cs)
    | .company =>
        let a1 := if 0 < pDed then
            { a with cumAdvance := formatNumber (a.cumAdvance + pDed) } else a
        let cs := (if 0 < pDed then [Clause.advance pDed] else []) ++
                  (if 0 < cDed then [Clause.companyPay cDed] else [])
        (a1, .clauses cs)
    | .other =>
        let cs := (if 0 < pDed then [Clause.personalPay pDed] else []) ++
                  (if 0 < cDed then [Clause.companyPay cDed] else [])
        (a, .clauses cs)

/-- The mutable state of `BalanceMethodTracker`. -/
structure BmState where
  personalBal : ℚ       -- _个人余额
  companyBal : ℚ        -- _公司余额
  initialized : Bool    -- _已初始化
  cumMisuse : ℚ         -- _累计挪用金额
  cumAdvance : ℚ        -- _累计垫付金额
  cumReturnCompany : ℚ  -- _累计由资金池回归公司余额本金
  cumReturnPersonal : ℚ -- _累计由资金池回归个人余额本金
  cumIllicit : ℚ        -- _累计非法所得
  personalProfit : ℚ    -- _总计个人应分配利润
  companyProfit : ℚ     -- _总计公司应分配利润
  pools : List (List Char × PoolB)  -- _投资产品资金池
  records : List PoolRecord         -- _场外资金池记录
  analyzer : AnalyzerState          -- _行为分析器
deriving DecidableEq, Repr

/-- The freshly constructed tracker (`__init__`). -/
def BmState.init : BmState := ⟨0, 0, false, 0, 0, 0, 0, 0, 0, 0, [], [], ⟨0, 0⟩⟩

/-- `初始化余额` (Balance-Method). -/
def BmState.initBalance (s : BmState) (amt : ℚ) (otype : Owner) : BmState :=
  if s.initialized = false ∧ 0 < amt then
    match otype with
    | .company => { s with companyBal := amt, initialized := true }
    | .personal => { s with personalBal := amt, initialized := true }
  else s

/-- `处理资金流入` (Balance-Method): same split rules as FIFO, no queue. -/
def BmState.processInflow (s : BmState) (amt : ℚ) (attr : List Char)
    (_t : Option ℕ) : BmState × ℚ × ℚ × Behavior :=
  if amt ≤ 0 then (s, 0, 0, .empty)
  else if isPersonalFund attr then
    ({ s with personalBal := s.personalBal + amt }, 1, 0, .inflowPersonal amt)
  else if isCompanyFund attr then
    ({ s with companyBal := s.companyBal + amt }, 0, 1, .inflowCompany amt)
  else
    let total := s.personalBal + s.companyBal
    if total = 0 then
      ({ s with personalBal := s.personalBal + amt / 2,
                companyBal := s.companyBal + amt / 2 },
       1/2, 1/2, .inflowMixed (amt / 2) (amt / 2))
    else
      let pShare := s.personalBal / total
      let cShare := s.companyBal / total
      let pAmt := amt * pShare
      let cAmt := amt * cShare
      ({ s with personalBal := s.personalBal + pAmt, companyBal := s.companyBal + cAmt },
       pShare, cShare, .inflowMixed pAmt cAmt)

/-- `_处理普通资金流出`: priority deduction by attribute class; the cross-pool
portion accrues to `_累计挪用金额` / `_累计垫付金额`; both counters are then
re-formatted; the behavior label comes from the shared analyzer. -/
def BmState.processOutflowOrdinary (s : BmState) (amt : ℚ) (attr : List Char)
    (_t : Option ℕ) : BmState × ℚ × ℚ × Behavior :=
  let total := s.personalBal + s.companyBal
  if total ≤ 0 then (s, 0, 0, .poolEmptyAmt amt)
  else
    let step :=
      if isPersonalFund attr then
        let pDed := min amt s.personalBal
        let cDed := min (amt - pDed) s.companyBal
        (pDed, cDed,
         if 0 < cDed then { s with cumMisuse := s.cumMisuse + cDed } else s)
      else if isCompanyFund attr then
        let cDed := min amt s.companyBal
        let pDed := min (amt - cDed) s.personalBal
        (pDed, cDed,
         if 0 < pDed then { s with cumAdvance := s.cumAdvance + pDed } else s)
      else
        let pDed := min amt s.personalBal
        let cDed := min (amt - pDed) s.companyBal
        (pDed, cDed, s)
    match step with
    | (pDed, cDed, s1) =>
      let shortfall := amt - pDed - cDed
      let s2 := { s1 with personalBal := s1.personalBal - pDed,
                          companyBal := s1.companyBal - cDed }
      let s3 := { s2 with cumMisuse := formatNumber s2.cumMisuse,
                          cumAdvance := formatNumber s2.cumAdvance }
      match analyzeBehaviorB s3.analyzer attr pDed cDed amt with
      | (a1, base) =>
        let s4 := { s3 with analyzer := a1 }
        let actual := pDed + cDed
        let pFrac := if 0 < actual then pDed / amt else 0
        let cFrac := if 0 < actual then cDed / amt else 0
        let behavior := if 1/100 < shortfall then .gap base shortfall else base
        (s4, pFrac, cFrac, behavior)

/-- `_更新投资产品资金池`: accumulate the contribution (no reset branch — a
negative total simply keeps accumulating), recompute shares only when the new
total is positive, and append a ledger record. -/
def BmState.updatePool (s : BmState) (pid : List Char) (amt pShare cShare : ℚ)
    (t : Option ℕ) : BmState :=
  let info := (findPoolB s.pools pid).getD PoolB.fresh
  let base := { info with totalAmt := info.totalAmt + amt,
                          cumPurchase := info.cumPurchase + amt,
                          cumPersonalAmt := info.cumPersonalAmt + amt * pShare,
                          cumCompanyAmt := info.cumCompanyAmt + amt * cShare }
  let info1 :=
    if 0 < base.totalAmt then
      { base with personalShare := base.cumPersonalAmt / base.totalAmt,
                  companyShare := base.cumCompanyAmt / base.totalAmt }
    else base
  let rec1 : PoolRecord :=
    ⟨t, pid, amt, 0, info1.totalAmt, info1.cumPurchase, info1.cumRedemption⟩
  { s with pools := setPoolB s.pools pid info1, records := s.records ++ [rec1] }

/-- `_处理投资产品申购`: personal balance first, company portion is misuse;
fractions relative to the requested amount; then update the pool. -/
def BmState.processPurchase (s : BmState) (amt : ℚ) (attr : List Char)
    (t : Option ℕ) : BmState × ℚ × ℚ × Behavior :=
  let pDed := min amt s.personalBal
  let cDed := min (amt - pDed) s.companyBal
  let s1 := { s with personalBal := s.personalBal - pDed,
                     companyBal := s.companyBal - cDed }
  let s2 := if 0 < cDed then
      { s1 with cumMisuse := formatNumber (s1.cumMisuse + cDed) } else s1
  let pFrac := if 0 < amt then pDed / amt else 0
  let cFrac := if 0 < amt then cDed / amt else 0
  let s3 := s2.updatePool attr amt pFrac cFrac t
  let cs := (if 0 < cDed then [Clause.investMisuse cDed] else []) ++
            (if 0 < pDed then [Clause.personalInvest pDed] else [])
  (s3, pFrac, cFrac, .purchaseWrap (beforeDash attr) attr (.clauses cs))

/-- `处理资金流出` (Balance-Method): dispatch investment labels to the purchase
path, everything else to the ordinary path. -/
def BmState.processOutflow (s : BmState) (amt : ℚ) (attr : List Char)
    (t : Option ℕ) : BmState × ℚ × ℚ × Behavior :=
  if amt ≤ 0 then (s, 0, 0, .empty)
  else if isInvestmentProduct attr then s.processPurchase amt attr t
  else s.processOutflowOrdinary amt attr t

/-- `处理投资产品赎回` (Balance-Method): split by the stored shares, return the
two parts to the scalar balances, credit returned principal (capped redemption
fraction), reduce the pool by `min(金额, 申购总额)`, and accrue the positive
overage to the two profit-share counters. -/
def BmState.processRedemption (s : BmState) (amt : ℚ) (attr : List Char)
    (t : Option ℕ) : BmState × ℚ × ℚ × Behavior :=
  if amt ≤ 0 then (s, 0, 0, .empty)
  else if isInvestmentProduct attr = false then (s, 0, 0, .empty)
  else
    match findPoolB s.pools attr with
    | none =>
        ({ s with personalBal := s.personalBal + amt },
         1, 0, .noPurchaseRecord (beforeDash attr) attr amt)
    | some info =>
      let rP := info.personalShare
      let rC := info.companyShare
      let pBack := amt * rP
      let cBack := amt * rC
      let s1 := { s with personalBal := s.personalBal + pBack,
                         companyBal := s.companyBal + cBack }
      let T := info.totalAmt
      -- 本金归还（抵消挪用）；个人本金只在公司本金为正时一并归还
      let s2 :=
        if 0 < T then
          let redeemFrac := min (amt / T) 1
          let backCompany := T * rC * redeemFrac
          if 0 < backCompany then
            let s2a := { s1 with
              cumReturnCompany := formatNumber (s1.cumReturnCompany + backCompany) }
            if 0 < rP then
              { s2a with
                cumReturnPersonal :=
                  formatNumber (s2a.cumReturnPersonal + T * rP * redeemFrac) }
            else s2a
          else s1
        else s1
      -- 更新产品信息（与FIFO算法一致：封顶的赎回比例与成本）
      let info1 : PoolB :=
        if 0 < T then
          let redeemFrac := min (amt / T) 1
          let cost := min amt T
          { info with cumPersonalAmt := info.cumPersonalAmt - info.cumPersonalAmt * redeemFrac,
                      cumCompanyAmt := info.cumCompanyAmt - info.cumCompanyAmt * redeemFrac,
                      totalAmt := T - cost }
        else info
      let info2 : PoolB := { info1 with cumRedemption := info1.cumRedemption + amt }
      let info3 : PoolB :=
        if 0 < info2.totalAmt then
          { info2 with personalShare := info2.cumPersonalAmt / info2.totalAmt,
                       companyShare := info2.cumCompanyAmt / info2.totalAmt }
        else info2
      let profit := max 0 (amt - min amt T)
      let s3 :=
        if 0 < profit then
          { s2 with personalProfit := formatNumber (s2.personalProfit + profit * rP),
                    companyProfit := formatNumber (s2.companyProfit + profit * rC) }
        else s2
      let rec1 : PoolRecord :=
        ⟨t, attr, 0, amt, info3.totalAmt, info3.cumPurchase, info3.cumRedemption⟩
      ({ s3 with pools := setPoolB s3.pools attr info3, records := s3.records ++ [rec1] },
       rP, rC, .redemptionB (beforeDash attr) attr pBack cBack)

/-! ## Direction classification (`flow_analyzer.py 分析交易方向`, duplicated
inline in `计算.py analyze_financial_data`) -/

/-- Transaction direction (`'收入'` / `'支出'` / `'无'`). -/
inductive FlowDir
  | inflow
  | outflow
  | nothing
deriving DecidableEq, Repr

/-- `分析交易方向`: effective amount and direction.  When both amounts are
positive, the larger wins and the comparison `收入 > 支出` is strict, so an
exact tie resolves to `支出`. -/
def analyzeTxDir (inc exp : ℚ) : ℚ × FlowDir :=
  if 0 < inc ∧ exp = 0 then (inc, .inflow)
  else if inc = 0 ∧ 0 < exp then (exp, .outflow)
  else if 0 < inc ∧ 0 < exp then
    (max inc exp, if exp < inc then FlowDir.inflow else FlowDir.outflow)
  else (0, .nothing)

/-! ## Run-level step machinery (rows fed by the audit pipeline) -/

/-- One tracker invocation, as dispatched per row by the pipeline. -/
inductive TrackerOp
  | initBal (amt : ℚ) (otype : Owner)
  | inflow (amt : ℚ) (attr : List Char) (t : Option ℕ)
  | outflow (amt : ℚ) (attr : List Char) (t : Option ℕ)
  | redemption (amt : ℚ) (attr : List Char) (t : Option ℕ)

/-- Apply one operation to the FIFO tracker, keeping the post-state. -/
def FifoState.step (s : FifoState) : TrackerOp → FifoState
  | .initBal a o => s.initBalance a o
  | .inflow a attr t => (s.processInflow a attr t).1
  | .outflow a attr t => (s.processOutflow a attr t).1
  | .redemption a attr t => (s.processRedemption a attr t).1

/-- A FIFO run: fold the row operations over the fresh tracker. -/
def FifoState.run (ops : List TrackerOp) : FifoState :=
  ops.foldl FifoState.step FifoState.init

/-- Apply one operation to the Balance-Method tracker. -/
def BmState.step (s : BmState) : TrackerOp → BmState
  | .initBal a o => s.initBalance a o
  | .inflow a attr t => (s.processInflow a attr t).1
  | .outflow a attr t => (s.processOutflow a attr t).1
  | .redemption a attr t => (s.processRedemption a attr t).1

/-- A Balance-Method run. -/
def BmState.run (ops : List TrackerOp) : BmState :=
  ops.foldl BmState.step BmState.init

/-! ## State invariants carried through every operation -/

/-- All queue slices carry non-negative amounts. -/
def SliceNN (q : List Slice) : Prop := ∀ e ∈ q, 0 ≤ e.amt

/-- Total amount held in the FIFO queue. -/
def sliceSum (q : List Slice) : ℚ := q.foldr (fun e acc => e.amt + acc) 0

/-- Invariant of one FIFO pool: the latest shares are non-negative, and as
long as the pool balance is non-negative so are the two owner amounts. -/
def PoolF.Inv (p : PoolF) : Prop :=
  0 ≤ p.latestPersonalShare ∧ 0 ≤ p.latestCompanyShare ∧
  (0 ≤ p.totalAmt → 0 ≤ p.personalAmt ∧ 0 ≤ p.companyAmt)

/-- Invariant of the FIFO tracker state. -/
def FifoState.Inv (s : FifoState) : Prop :=
  0 ≤ s.personalBal ∧ 0 ≤ s.companyBal ∧ SliceNN s.queue ∧
  (∀ kp ∈ s.pools, PoolF.Inv kp.2) ∧
  Formatted s.cumMisuse ∧ Formatted s.cumAdvance ∧ Formatted s.cumIllicit ∧
  Formatted s.personalProfit ∧ Formatted s.companyProfit

/-- Invariant of one Balance-Method pool: everything the redemption path reads
is non-negative (the capped redemption fraction keeps it so). -/
def PoolB.Inv (p : PoolB) : Prop :=
  0 ≤ p.totalAmt ∧ 0 ≤ p.personalShare ∧ 0 ≤ p.companyShare ∧
  0 ≤ p.cumPersonalAmt ∧ 0 ≤ p.cumCompanyAmt

/-- Invariant of the Balance-Method tracker state. -/
def BmState.Inv (s : BmState) : Prop :=
  0 ≤ s.personalBal ∧ 0 ≤ s.companyBal ∧
  (∀ kp ∈ s.pools, PoolB.Inv kp.2) ∧
  Formatted s.cumMisuse ∧ Formatted s.cumAdvance ∧
  Formatted s.cumReturnCompany ∧ Formatted s.cumReturnPersonal ∧
  Formatted s.personalProfit ∧ Formatted s.companyProfit ∧
  Formatted s.analyzer.cumMisuse ∧ Formatted s.analyzer.cumAdvance

/-- Pointwise order on the four emitted cumulative counters of the FIFO
tracker: misuse, advance, and the two profit shares. -/
def FifoState.countersLe (s s' : FifoState) : Prop :=
  s.cumMisuse ≤ s'.cumMisuse ∧ s.cumAdvance ≤ s'.cumAdvance ∧
  s.personalProfit ≤ s'.personalProfit ∧ s.companyProfit ≤ s'.companyProfit

/-- Pointwise order on the four emitted cumulative counters of the
Balance-Method tracker. -/
def BmState.countersLe (s s' : BmState) : Prop :=
  s.cumMisuse ≤ s'.cumMisuse ∧ s.cumAdvance ≤ s'.cumAdvance ∧
  s.personalProfit ≤ s'.personalProfit ∧ s.companyProfit ≤ s'.companyProfit

/-! ## Flow-integrity validator (`legacy/utils/flow_integrity_validator.py`) -/

/-- One ledger row as read by the validator: full timestamp, credit amount,
debit amount, recorded balance. -/
structure TxRow where
  ts : ℕ
  income : ℚ
  expense : ℚ
  bal : ℚ
deriving DecidableEq, Repr

instance : Inhabited TxRow := ⟨⟨0, 0, 0, 0⟩⟩

/-- `df.iloc[p]` with the validator's defensive zero default. -/
def rowAt (df : List TxRow) (p : ℕ) : TxRow := df.getD p default

/-- The balance-continuity equation against a given previous balance:
`|actual − (prev + income − expense)| ≤ 0.01`. -/
def contOKBal (bal : ℚ) (cur : TxRow) : Prop :=
  |cur.bal - (bal + cur.income - cur.expense)| ≤ 1/100

instance (bal : ℚ) (cur : TxRow) : Decidable (contOKBal bal cur) := by
  unfold contOKBal
  infer_instance

/-- `_check_balance_continuity` between two adjacent rows. -/
def contOK (prev cur : TxRow) : Prop := contOKBal prev.bal cur

instance (prev cur : TxRow) : Decidable (contOK prev cur) := by
  unfold contOK
  infer_instance

/-- Insertion sort on positions (`sorted(indices)`). -/
def insertNat (x : ℕ) : List ℕ → List ℕ
  | [] => [x]
  | y :: ys => if x ≤ y then x :: y :: ys else y :: insertNat x ys

/-- `sorted(...)` on a list of positions. -/
def sortNat : List ℕ → List ℕ
  | [] => []
  | x :: xs => insertNat x (sortNat xs)

/-- `min(indices)` (0 on the empty list, which the callers exclude). -/
def minOf : List ℕ → ℕ
  | [] => 0
  | x :: xs => xs.foldl min x

/-- `max(indices)`. -/
def maxOf : List ℕ → ℕ
  | [] => 0
  | x :: xs => xs.foldl max x

/-- Write a batch of `(position, row)` assignments into the data frame. -/
def writeAll : List TxRow → List (ℕ × TxRow) → List TxRow
  | df, [] => df
  | df, (p, r) :: rest => writeAll (df.set p r) rest

/-- `_create_reordered_dataframe`: read the rows of `order` from the original
frame, then write them back at the sorted cluster positions. -/
def rebuildDf (df : List TxRow) (positions order : List ℕ) : List TxRow :=
  writeAll df ((sortNat positions).zip (order.map (rowAt df)))

/-- The positions of all rows sharing a timestamp (`same_time_indices`). -/
def clusterIdx (df : List TxRow) (t : ℕ) : List ℕ :=
  (List.range df.length).filter (fun p => (rowAt df p).ts = t)

/-- `_test_order_validity`: re-check continuity across the reordered segment
and the row following it (skipping global row 0). -/
def testOrderValidity (df : List TxRow) (order : List ℕ) : Bool :=
  let temp := rebuildDf df order order
  let lo := minOf order
  let hi := maxOf order
  (List.range' lo (hi + 1 - lo)).all
    (fun i => if i = 0 then true else decide (contOK (rowAt temp (i - 1)) (rowAt temp i))) &&
  (if hi + 1 < df.length then decide (contOK (rowAt temp hi) (rowAt temp (hi + 1))) else true)

/-- The inner scan of the greedy search: the first remaining candidate whose
recorded balance continues the chain, together with the rest. -/
def findFirstOK (bal : ℚ) : List (ℕ × TxRow) → Option (ℕ × TxRow × List (ℕ × TxRow))
  | [] => none
  | (i, r) :: rest =>
    if contOKBal bal r then some (i, r, rest)
    else
      match findFirstOK bal rest with
      | none => none
      | some (j, r', rest') => some (j, r', (i, r) :: rest')

/-- The greedy placement loop of `_greedy_order_search` (fuelled by the number
of candidates, which `greedySearch` supplies exactly). -/
def greedyAux : ℕ → List (ℕ × TxRow) → ℚ → Option (List ℕ)
  | _, [], _ => some []
  | 0, _ :: _, _ => none
  | fuel + 1, cands, bal =>
    match findFirstOK bal cands with
    | none => none
    | some (i, r, rest) =>
      match greedyAux fuel rest r.bal with
      | none => none
      | some order => some (i :: order)

/-- Greedy construction of a continuity-respecting order for the candidates,
starting from a given previous balance. -/
def greedySearch (cands : List (ℕ × TxRow)) (bal : ℚ) : Option (List ℕ) :=
  greedyAux cands.length cands bal

/-- `_greedy_order_search` (as reached through `_find_best_order`): for a
cluster whose first row is row 0 only the current order is tested; otherwise
run the greedy placement from the balance before the cluster. -/
def greedyOrderSearch (df : List TxRow) (indices : List ℕ) : Option (List ℕ) :=
  if indices.length ≤ 1 then some indices
  else if minOf indices = 0 then
    if testOrderValidity df indices then some indices else none
  else
    greedySearch (indices.map (fun p => (p, rowAt df p))) (rowAt df (minOf indices - 1)).bal

/-- `_attempt_reorder_fix`: needs at least two same-timestamp rows, a greedy
order, and that order must differ from the current one. -/
def attemptReorderFix (df : List TxRow) (i : ℕ) : Option (List TxRow) :=
  let indices := clusterIdx df (rowAt df i).ts
  if indices.length ≤ 1 then none
  else
    match greedyOrderSearch df indices with
    | some best => if best ≠ indices then some (rebuildDf df indices best) else none
    | none => none

/-- The row-by-row loop of `validate_flow_integrity` (fuelled; the wrapper
supplies enough fuel for the whole frame).  `none` models a recorded error
(`optimization_failed`); `some (rows, n)` is a clean report with `n` repairs. -/
def validateLoop : ℕ → List TxRow → ℕ → ℕ → Option (List TxRow × ℕ)
  | 0, df, _, cnt => some (df, cnt)
  | fuel + 1, df, i, cnt =>
    if i < df.length then
      if contOK (rowAt df (i - 1)) (rowAt df i) then validateLoop fuel df (i + 1) cnt
      else
        match attemptReorderFix df i with
        | some fixed =>
          if contOK (rowAt fixed (i - 1)) (rowAt fixed i) then
            validateLoop fuel fixed (i + 1) (cnt + 1)
          else none
        | none => none
    else some (df, cnt)

/-- `validate_flow_integrity`: scan from the second row; on success return the
repaired frame and the repair count. -/
def validateFlow (df : List TxRow) : Option (List TxRow × ℕ) :=
  validateLoop df.length df 1 0

/-- Rows with equal timestamps are contiguous (guaranteed by the pipeline's
stable sort on `(完整时间戳, 原始索引)` before validation). -/
def ClustersContiguous (df : List TxRow) : Prop :=
  ∀ r, r < df.length → ∀ q, q ≤ r → ∀ p, p ≤ q →
    (rowAt df p).ts = (rowAt df r).ts → (rowAt df q).ts = (rowAt df p).ts

instance (df : List TxRow) : Decidable (ClustersContiguous df) := by
  unfold ClustersContiguous
  infer_instance

/-- Chain of balance-continuity checks along a row list, threading each row's
recorded balance (the order produced by `_greedy_order_search` satisfies it). -/
def ChainRows : ℚ → List TxRow → Prop
  | _, [] => True
  | bal, r :: rs => contOKBal bal r ∧ ChainRows r.bal rs

/-- Every adjacent pair of the frame satisfies balance continuity (what a fully
validated frame looks like). -/
def AllContOK (df : List TxRow) : Prop :=
  ∀ j, 1 ≤ j → j < df.length → contOK (rowAt df (j - 1)) (rowAt df j)

/-! ## Concrete fixtures used by the end-to-end checks -/

/-- An investment-product pool key (`理财-A001`). -/
def attrLC : List Char := ("理财-A001").data

/-- The personal-payable attribute label. -/
def attrPP : List Char := ("个人应付").data

/-- A non-investment label containing both a personal and a company keyword. -/
def attrBoth : List Char := ("个人转公司备用金").data

/-- An investment label whose identifier contains both keyword sets. -/
def attrInvBoth : List Char := ("理财-个人公司".data)

/-- Balance-Method tracker holding the seed-scenario opening balances. -/
def c3state : BmState :=
  { BmState.init with personalBal := 100000, companyBal := 200000, initialized := true }

/-- A FIFO pool funded with 100 at an even split. -/
def c1poolF : PoolF :=
  { personalAmt := 50, companyAmt := 50, totalAmt := 100, cumPurchase := 100,
    cumRedemption := 0, latestPersonalShare := 1/2, latestCompanyShare := 1/2 }

/-- FIFO tracker owning that pool. -/
def c1fifo : FifoState := { FifoState.init with pools := [(attrLC, c1poolF)] }

/-- A Balance-Method pool funded with 100 at an even split. -/
def c1poolB : PoolB :=
  { totalAmt := 100, personalShare := 1/2, companyShare := 1/2, cumPurchase := 100,
    cumRedemption := 0, cumPersonalAmt := 50, cumCompanyAmt := 50,
    resetHist := [], cumRealized := 0 }

/-- Balance-Method tracker owning that pool. -/
def c1bm : BmState := { BmState.init with pools := [(attrLC, c1poolB)] }

/-- A Balance-Method pool left negative by an over-redemption. -/
def c2poolB : PoolB := { PoolB.fresh with totalAmt := -100000 }

/-- Balance-Method tracker owning the negative pool. -/
def c2bm : BmState := { BmState.init with pools := [(attrLC, c2poolB)] }

/-- A FIFO-shape pool left negative by an over-redemption. -/
def c2poolF : PoolF := { PoolF.fresh with totalAmt := -100000 }

/-- FIFO tracker with liquid funds 30 personal / 20 company. -/
def c6fifo : FifoState :=
  { FifoState.init with
    personalBal := 30
    companyBal := 20
    queue := [(⟨30, Owner.personal, none⟩ : Slice), (⟨20, Owner.company, none⟩ : Slice)]
    initialized := true }

/-- The greedy-reorder seed scenario: prior balance 100, then two swapped
credits at one shared timestamp. -/
def c7rows : List TxRow := [⟨0, 0, 0, 100⟩, ⟨1, 20, 0, 130⟩, ⟨1, 10, 0, 110⟩]

/-- The repaired frame the validator produces from `c7rows`: the two rows of
timestamp 1 swapped into balance-continuous order. -/
def c7fixed : List TxRow := [⟨0, 0, 0, 100⟩, ⟨1, 10, 0, 110⟩, ⟨1, 20, 0, 130⟩]

/-! ## Arithmetic lemmas about the two-decimal formatter -/

theorem roundHalfEven_floor_le (x : ℚ) : ⌊x⌋ ≤ roundHalfEven x := by
  unfold roundHalfEven
  split
  · exact le_refl _
  · split
    · exact Int.le.intro 1 rfl
    · split
      · exact le_refl _
      · exact Int.le.intro 1 rfl

theorem roundHalfEven_le_floor_add_one (x : ℚ) : roundHalfEven x ≤ ⌊x⌋ + 1 := by
  unfold roundHalfEven
  split
  · exact Int.le.intro 1 rfl
  · split
    · exact le_refl _
    · split
      · exact Int.le.intro 1 rfl
      · exact le_refl _

theorem roundHalfEven_intCast (n : ℤ) : roundHalfEven (n : ℚ) = n := by
  unfold roundHalfEven
  rw [Int.floor_intCast]
  simp

theorem formatNumber_nonneg {v : ℚ} (h : 0 ≤ v) : 0 ≤ formatNumber v := by
  unfold formatNumber
  split
  · exact le_refl 0
  · have h1 : (0 : ℤ) ≤ ⌊v * 100⌋ := by
      apply Int.floor_nonneg.mpr
      positivity
    have h2 : (0 : ℤ) ≤ roundHalfEven (v * 100) := le_trans h1 (roundHalfEven_floor_le _)
    have : (0 : ℚ) ≤ (roundHalfEven (v * 100) : ℚ) := by exact_mod_cast h2
    positivity

theorem formatNumber_formatted {v : ℚ} (h : 0 ≤ v) : Formatted (formatNumber v) := by
  refine ⟨formatNumber_nonneg h, ?_⟩
  unfold formatNumber
  split
  · exact ⟨0, by norm_num⟩
  · exact ⟨roundHalfEven (v * 100), rfl⟩

/-- Accruing a non-negative amount into a formatted counter and re-formatting
never decreases the counter. -/
theorem formatNumber_accrue_le {c d : ℚ} (hc : Formatted c) (hd : 0 ≤ d) :
    c ≤ formatNumber (c + d) := by
  obtain ⟨hc0, n, hn⟩ := hc
  subst hn
  have hn0 : (0 : ℤ) ≤ n := by
    by_contra hneg
    push_neg at hneg
    have : (n : ℚ) / 100 < 0 := by
      apply div_neg_of_neg_of_pos
      · exact_mod_cast hneg
      · norm_num
    exact absurd this (not_lt.mpr hc0)
  unfold formatNumber
  split
  · -- the sum collapses to zero: then the counter was already zero
    rename_i hsmall
    have habs : (n : ℚ) / 100 + d < 1/100000000 := by
      calc (n : ℚ) / 100 + d = |(n : ℚ) / 100 + d| := (abs_of_nonneg (by linarith)).symm
        _ < 1/100000000 := hsmall
    have hns : (n : ℚ) < 1/1000000 := by linarith
    have : n = 0 := by
      by_contra hne
      have h1 : (1 : ℤ) ≤ n := lt_of_le_of_ne hn0 (Ne.symm hne)
      have : (1 : ℚ) ≤ (n : ℚ) := by exact_mod_cast h1
      linarith
    rw [this]
    norm_num
  · -- the rounded value dominates the floor, which dominates the old counter
    have hfloor : n ≤ ⌊((n : ℚ) / 100 + d) * 100⌋ := by
      rw [Int.le_floor]
      nlinarith
    have hle : n ≤ roundHalfEven (((n : ℚ) / 100 + d) * 100) :=
      le_trans hfloor (roundHalfEven_floor_le _)
    have hq : (n : ℚ) ≤ (roundHalfEven (((n : ℚ) / 100 + d) * 100) : ℚ) := by exact_mod_cast hle
    linarith

theorem Formatted.zero : Formatted 0 := ⟨le_refl 0, 0, by norm_num⟩

theorem Formatted.accrue {c d : ℚ} (hc : Formatted c) (hd : 0 ≤ d) :
    Formatted (formatNumber (c + d)) :=
  formatNumber_formatted (by linarith [hc.1])

/-- Re-formatting a formatted counter leaves it unchanged
(the trackers re-apply the formatter to untouched counters). -/
theorem formatNumber_formatted_fixed {c : ℚ} (hc : Formatted c) :
    formatNumber c = c := by
  obtain ⟨hc0, n, hn⟩ := hc
  subst hn
  have hn0 : (0 : ℤ) ≤ n := by
    by_contra hneg
    push_neg at hneg
    have : (n : ℚ) / 100 < 0 := by
      apply div_neg_of_neg_of_pos
      · exact_mod_cast hneg
      · norm_num
    exact absurd this (not_lt.mpr hc0)
  unfold formatNumber
  split
  · rename_i hsmall
    rw [abs_of_nonneg hc0] at hsmall
    have : n = 0 := by
      by_contra hne
      have h1 : (1 : ℤ) ≤ n := lt_of_le_of_ne hn0 (Ne.symm hne)
      have : (1 : ℚ) ≤ (n : ℚ) := by exact_mod_cast h1
      have : (1 : ℚ) / 100 ≤ (n : ℚ) / 100 := by linarith
      linarith
    rw [this]
    norm_num
  · rw [show ((n : ℚ) / 100) * 100 = (n : ℚ) by ring, roundHalfEven_intCast]


/-! ## C5 — direction classification on ties -/

/-- C5 counterexample: with credit = debit = 5 the classifier does NOT return
direction credit (`收入`); the claim "ties go to credit" is false on the code,
which compares `收入 > 支出` strictly. -/
theorem C5_tie_counterexample : ¬ (analyzeTxDir 5 5 = (5, FlowDir.inflow)) := by
  decide

/-- C5 (amended): when the credit and debit amounts are both positive and
equal, `分析交易方向` returns the common value as the effective amount with
direction debit (`支出`) — ties go to debit, because the larger-amount rule
uses the strict comparison `收入 > 支出` with debit as the fallback. -/
theorem C5_tie_goes_to_debit (inc exp : ℚ) (h1 : 0 < inc) (h2 : 0 < exp)
    (heq : inc = exp) : analyzeTxDir inc exp = (inc, FlowDir.outflow) := by
  subst heq
  unfold analyzeTxDir
  rw [if_neg (by intro h; exact absurd h.2 (ne_of_gt h1))]
  rw [if_neg (by intro h; exact absurd h.1 (ne_of_gt h1))]
  rw [if_pos ⟨h1, h1⟩]
  rw [if_neg (lt_irrefl inc)]
  rw [max_self]

/-- C5 witness: the amended statement evaluated at credit = debit = 5. -/
theorem C5_tie_goes_to_debit_witness : analyzeTxDir 5 5 = (5, FlowDir.outflow) :=
  C5_tie_goes_to_debit 5 5 (by norm_num) (by norm_num) rfl

/-! ## C10 — non-positive amounts are no-ops -/

/-- C10: every tracker operation — credit inflow, debit outflow, investment
redemption, in both variants — called with an amount ≤ 0 returns ratios (0, 0)
with the empty behavior label and leaves the whole tracker state unchanged. -/
theorem C10_nonpositive_amount_noop (s : FifoState) (b : BmState) (amt : ℚ)
    (attr : List Char) (t : Option ℕ) (h : amt ≤ 0) :
    s.processInflow amt attr t = (s, 0, 0, .empty) ∧
    s.processOutflow amt attr t = (s, 0, 0, .empty) ∧
    s.processRedemption amt attr t = (s, 0, 0, .empty) ∧
    b.processInflow amt attr t = (b, 0, 0, .empty) ∧
    b.processOutflow amt attr t = (b, 0, 0, .empty) ∧
    b.processRedemption amt attr t = (b, 0, 0, .empty) := by
  refine ⟨?_, ?_, ?_, ?_, ?_, ?_⟩
  · unfold FifoState.processInflow; rw [if_pos h]
  · unfold FifoState.processOutflow; rw [if_pos h]
  · unfold FifoState.processRedemption; rw [if_pos h]
  · unfold BmState.processInflow; rw [if_pos h]
  · unfold BmState.processOutflow; rw [if_pos h]
  · unfold BmState.processRedemption; rw [if_pos h]

/-- C10 witness: the no-op contract evaluated at amount 0 on fresh trackers. -/
theorem C10_nonpositive_amount_noop_witness :
    FifoState.init.processOutflow 0 attrPP none = (FifoState.init, 0, 0, .empty) ∧
    BmState.init.processRedemption 0 attrLC none = (BmState.init, 0, 0, .empty) :=
  ⟨(C10_nonpositive_amount_noop FifoState.init BmState.init 0 attrPP none le_rfl).2.1,
   (C10_nonpositive_amount_noop FifoState.init BmState.init 0 attrLC none le_rfl).2.2.2.2.2⟩

/-! ## C9 — classification precedence -/

/-- C9: classification precedence is fixed — the investment-product pattern is
tested first (an investment label is dispatched to the purchase path no matter
which keywords it contains), then personal keywords, then company keywords; a
non-investment label containing both a personal and a company keyword is
classified personal, exhibited on `个人转公司备用金`, while `理财-个人公司`
contains both keyword sets yet is treated as an investment product. -/
theorem C9_classification_precedence :
    (∀ (s : BmState) (amt : ℚ) (attr : List Char) (t : Option ℕ),
        0 < amt → isInvestmentProduct attr = true →
        s.processOutflow amt attr t = s.processPurchase amt attr t) ∧
    (∀ attr : List Char, isPersonalFund attr = true → classifyAttr attr = .personal) ∧
    isPersonalFund attrBoth = true ∧ isCompanyFund attrBoth = true ∧
    isInvestmentProduct attrBoth = false ∧ classifyAttr attrBoth = .personal ∧
    isInvestmentProduct attrInvBoth = true ∧ isPersonalFund attrInvBoth = true ∧
    isCompanyFund attrInvBoth = true := by
  refine ⟨?_, ?_, by decide, by decide, by decide, by decide, by decide, by decide, by decide⟩
  · intro s amt attr t hamt hinv
    unfold BmState.processOutflow
    rw [if_neg (not_le.mpr hamt), if_pos hinv]
  · intro attr hp
    unfold classifyAttr
    rw [if_pos hp]

/-- C9 witness: the precedence facts applied at the concrete mixed labels. -/
theorem C9_classification_precedence_witness :
    c3state.processOutflow 100 attrInvBoth none = c3state.processPurchase 100 attrInvBoth none ∧
    classifyAttr attrBoth = .personal :=
  ⟨C9_classification_precedence.1 c3state 100 attrInvBoth none (by norm_num) (by decide),
   C9_classification_precedence.2.1 attrBoth (by decide)⟩

/-! ## C3 — Balance-Method personal-class debit priority -/

/-- C3: a Balance-Method debit with a personal-class (non-investment) attribute
deducts `min(A, personal)` from the personal balance first and
`min(A − personal_deducted, company)` from the company balance, accrues the
company-deducted portion into cumulative misuse (two-decimal formatted),
leaves cumulative advance unchanged, and returns the ratios
`personal_deducted/A` and `company_deducted/A`. -/
theorem C3_personal_debit_priority (s : BmState) (amt : ℚ) (attr : List Char)
    (t : Option ℕ) (hamt : 0 < amt) (hinv : isInvestmentProduct attr = false)
    (hpers : isPersonalFund attr = true)
    (hP : 0 ≤ s.personalBal) (hC : 0 ≤ s.companyBal)
    (htot : 0 < s.personalBal + s.companyBal)
    (hadv : Formatted s.cumAdvance) :
    (s.processOutflow amt attr t).1.personalBal = s.personalBal - min amt s.personalBal ∧
    (s.processOutflow amt attr t).1.companyBal
      = s.companyBal - min (amt - min amt s.personalBal) s.companyBal ∧
    (s.processOutflow amt attr t).1.cumMisuse
      = formatNumber (s.cumMisuse + min (amt - min amt s.personalBal) s.companyBal) ∧
    (s.processOutflow amt attr t).1.cumAdvance = s.cumAdvance ∧
    (s.processOutflow amt attr t).2.1 = min amt s.personalBal / amt ∧
    (s.processOutflow amt attr t).2.2.1 = min (amt - min amt s.personalBal) s.companyBal / amt := by
  have hcDed0 : 0 ≤ min (amt - min amt s.personalBal) s.companyBal := by
    apply le_min
    · have : min amt s.personalBal ≤ amt := min_le_left _ _
      linarith
    · exact hC
  have hactual : 0 < min amt s.personalBal + min (amt - min amt s.personalBal) s.companyBal := by
    rcases lt_or_eq_of_le hP with hPpos | hPzero
    · have h1 : 0 < min amt s.personalBal := lt_min hamt hPpos
      linarith
    · have h1 : min amt s.personalBal = 0 := by
        rw [← hPzero]
        exact min_eq_right (le_of_lt hamt)
      have hCpos : 0 < s.companyBal := by rw [← hPzero] at htot; linarith
      have h2 : 0 < min (amt - min amt s.personalBal) s.companyBal := by
        rw [h1, sub_zero]
        exact lt_min hamt hCpos
      linarith
  unfold BmState.processOutflow BmState.processOutflowOrdinary
  rw [if_neg (not_le.mpr hamt), if_neg (by rw [hinv]; simp), if_neg (not_le.mpr htot),
      if_pos hpers]
  simp only
  refine ⟨by split <;> rfl, by split <;> rfl, ?_,
          by split <;> exact formatNumber_formatted_fixed hadv,
          by simp only [if_pos hactual], by simp only [if_pos hactual]⟩
  split
  · rfl
  · rename_i hc
    have hczero : min (amt - min amt s.personalBal) s.companyBal = 0 :=
      le_antisymm (not_lt.mp hc) hcDed0
    rw [hczero, add_zero]

/-- C3 witness: the seed scenario — opening personal 100000 / company 200000,
debit 150000 with attribute `个人应付` — yields personal 0, company 150000,
misuse 50000, advance 0, ratios 100000/150000 and 50000/150000. -/
theorem C3_personal_debit_priority_witness :
    (c3state.processOutflow 150000 attrPP none).1.personalBal = 0 ∧
    (c3state.processOutflow 150000 attrPP none).1.companyBal = 150000 ∧
    (c3state.processOutflow 150000 attrPP none).1.cumMisuse = 50000 ∧
    (c3state.processOutflow 150000 attrPP none).1.cumAdvance = 0 ∧
    (c3state.processOutflow 150000 attrPP none).2.1 = 100000 / 150000 ∧
    (c3state.processOutflow 150000 attrPP none).2.2.1 = 50000 / 150000 := by
  obtain ⟨h1, h2, h3, h4, h5, h6⟩ :=
    C3_personal_debit_priority c3state 150000 attrPP none (by norm_num) (by decide)
      (by decide) (by norm_num [c3state, BmState.init]) (by norm_num [c3state, BmState.init])
      (by norm_num [c3state, BmState.init]) Formatted.zero
  refine ⟨?_, ?_, ?_, ?_, ?_, ?_⟩
  · rw [h1]; norm_num [c3state, BmState.init, min_def]
  · rw [h2]; norm_num [c3state, BmState.init, min_def]
  · rw [h3]
    norm_num [c3state, BmState.init, min_def]
    norm_num [formatNumber, roundHalfEven]
  · rw [h4]; norm_num [c3state, BmState.init]
  · rw [h5]; norm_num [c3state, BmState.init, min_def]
  · rw [h6]; norm_num [c3state, BmState.init, min_def]

/-! ## C8 — redemption without a purchase record -/

/-- C8: a redemption whose pool key never received a contribution adds the full
amount to the personal balance (in the FIFO variant additionally enqueuing the
matching personal slice), returns ratios (1, 0) with the `（无申购记录）`
label, and mutates nothing else — the returned states differ from the inputs
only in the personal balance (and FIFO queue); the call returns normally, so
the condition is never fatal. -/
theorem C8_unknown_redemption (s : FifoState) (b : BmState) (amt : ℚ)
    (attr : List Char) (t : Option ℕ) (hamt : 0 < amt)
    (hparse : parseInvestmentId attr = some attr)
    (hinv : isInvestmentProduct attr = true)
    (hnoneF : findPool s.pools attr = none)
    (hnoneB : findPoolB b.pools attr = none) :
    s.processRedemption amt attr t =
      ({ s with personalBal := s.personalBal + amt,
                queue := s.queue ++ [⟨amt, .personal, t⟩] },
       1, 0, .noPurchaseRecord (beforeDash attr) attr amt) ∧
    b.processRedemption amt attr t =
      ({ b with personalBal := b.personalBal + amt },
       1, 0, .noPurchaseRecord (beforeDash attr) attr amt) := by
  constructor
  · unfold FifoState.processRedemption
    rw [if_neg (not_le.mpr hamt), hparse]
    simp only [hnoneF]
  · unfold BmState.processRedemption
    rw [if_neg (not_le.mpr hamt), if_neg (by rw [hinv]; simp)]
    simp only [hnoneB]

/-- C8 witness: redeeming 5000 on the unknown pool key `理财-A001` from fresh
trackers credits the personal balance with 5000 at ratios (1, 0) and leaves
the pool map, company balance and counters untouched. -/
theorem C8_unknown_redemption_witness :
    (FifoState.init.processRedemption 5000 attrLC none).1.personalBal = 5000 ∧
    (FifoState.init.processRedemption 5000 attrLC none).2.1 = 1 ∧
    (FifoState.init.processRedemption 5000 attrLC none).1.pools = [] ∧
    (BmState.init.processRedemption 5000 attrLC none).1.personalBal = 5000 ∧
    (BmState.init.processRedemption 5000 attrLC none).1.companyBal = 0 := by
  obtain ⟨h1, h2⟩ := C8_unknown_redemption FifoState.init BmState.init 5000 attrLC none
    (by norm_num) (by decide) (by decide) rfl rfl
  refine ⟨?_, ?_, ?_, ?_, ?_⟩
  · rw [h1]; norm_num [FifoState.init]
  · rw [h1]
  · rw [h1]; simp [FifoState.init]
  · rw [h2]; norm_num [BmState.init]
  · rw [h2]; simp [BmState.init]

/-! ## Dictionary and queue helper lemmas -/

/-- Reading back the key just written (FIFO pool dictionary). -/
theorem findPool_setPool_self (m : List (List Char × PoolF)) (k : List Char) (v : PoolF) :
    findPool (setPool m k v) k = some v := by
  induction m with
  | nil => simp [setPool, findPool]
  | cons kv rest ih =>
    obtain ⟨k', v'⟩ := kv
    unfold setPool
    by_cases h : k' = k
    · rw [if_pos h]
      unfold findPool
      rw [if_pos rfl]
    · rw [if_neg h]
      unfold findPool
      rw [if_neg h]
      exact ih

/-- Reading back the key just written (Balance-Method pool dictionary). -/
theorem findPoolB_setPoolB_self (m : List (List Char × PoolB)) (k : List Char) (v : PoolB) :
    findPoolB (setPoolB m k v) k = some v := by
  induction m with
  | nil => simp [setPoolB, findPoolB]
  | cons kv rest ih =>
    obtain ⟨k', v'⟩ := kv
    unfold setPoolB
    by_cases h : k' = k
    · rw [if_pos h]
      unfold findPoolB
      rw [if_pos rfl]
    · rw [if_neg h]
      unfold findPoolB
      rw [if_neg h]
      exact ih

/-- A queue of non-negative slices holds a non-negative total. -/
theorem sliceSum_nonneg {q : List Slice} (hq : SliceNN q) : 0 ≤ sliceSum q := by
  induction q with
  | nil => simp [sliceSum]
  | cons e rest ih =>
    have he : 0 ≤ e.amt := hq e (List.mem_cons_self _ _)
    have hrest : SliceNN rest := fun x hx => hq x (List.mem_cons_of_mem _ hx)
    have := ih hrest
    simp only [sliceSum, List.foldr_cons] at *
    linarith

/-- Unfolding the queue total over a cons cell. -/
theorem sliceSum_cons (e : Slice) (rest : List Slice) :
    sliceSum (e :: rest) = e.amt + sliceSum rest := rfl

/-- The FIFO deduction loop consumes exactly `min(target, queue total)`,
splitting it between the two owner accumulators. -/
theorem consumeQueue_total (q : List Slice) :
    ∀ rem pBal cBal pD cD : ℚ, SliceNN q → 0 ≤ rem →
    (consumeQueue q rem pBal cBal pD cD).1 + (consumeQueue q rem pBal cBal pD cD).2.1
      = pD + cD + min rem (sliceSum q) := by
  induction q with
  | nil =>
    intro rem pBal cBal pD cD _ hrem
    simp [consumeQueue, sliceSum, min_eq_right hrem]
  | cons e rest ih =>
    intro rem pBal cBal pD cD hq hrem
    have he : 0 ≤ e.amt := hq e (List.mem_cons_self _ _)
    have hrest : SliceNN rest := fun x hx => hq x (List.mem_cons_of_mem _ hx)
    have hsr : 0 ≤ sliceSum rest := sliceSum_nonneg hrest
    unfold consumeQueue
    by_cases h0 : rem ≤ 0
    · rw [if_pos h0]
      have hz : rem = 0 := le_antisymm h0 hrem
      subst hz
      rw [min_eq_left (sliceSum_nonneg hq)]
      ring
    · rw [if_neg h0]
      push_neg at h0
      by_cases hfull : e.amt ≤ rem
      · rw [if_pos hfull]
        have hmin : e.amt + min (rem - e.amt) (sliceSum rest) = min rem (sliceSum (e :: rest)) := by
          rw [sliceSum_cons]
          rcases le_total (rem - e.amt) (sliceSum rest) with hle | hle
          · rw [min_eq_left hle, min_eq_left (by linarith)]
            ring
          · rw [min_eq_right hle, min_eq_right (by linarith)]
        cases howner : e.owner
        · have h := ih (rem - e.amt) (max 0 (pBal - e.amt)) cBal (pD + e.amt) cD hrest
            (by linarith)
          simp only
          rw [h, ← hmin]
          ring
        · have h := ih (rem - e.amt) pBal (max 0 (cBal - e.amt)) pD (cD + e.amt) hrest
            (by linarith)
          simp only
          rw [h, ← hmin]
          ring
      · rw [if_neg hfull]
        push_neg at hfull
        have hm : min rem (sliceSum (e :: rest)) = rem := by
          rw [sliceSum_cons]
          exact min_eq_left (by linarith)
        rw [hm]
        cases howner : e.owner
        · simp only
          ring
        · simp only
          ring

/-- The FIFO deduction loop keeps accumulators growing, balances non-negative,
and the queue's slice amounts non-negative. -/
theorem consumeQueue_nonneg (q : List Slice) :
    ∀ rem pBal cBal pD cD : ℚ, SliceNN q → 0 ≤ pBal → 0 ≤ cBal → 0 ≤ pD → 0 ≤ cD →
    pD ≤ (consumeQueue q rem pBal cBal pD cD).1 ∧
    cD ≤ (consumeQueue q rem pBal cBal pD cD).2.1 ∧
    0 ≤ (consumeQueue q rem pBal cBal pD cD).2.2.1 ∧
    0 ≤ (consumeQueue q rem pBal cBal pD cD).2.2.2.1 ∧
    SliceNN (consumeQueue q rem pBal cBal pD cD).2.2.2.2 := by
  induction q with
  | nil =>
    intro rem pBal cBal pD cD _ hp hc hpd hcd
    exact ⟨le_refl _, le_refl _, hp, hc, fun x hx => absurd hx (List.not_mem_nil x)⟩
  | cons e rest ih =>
    intro rem pBal cBal pD cD hq hp hc hpd hcd
    have he : 0 ≤ e.amt := hq e (List.mem_cons_self _ _)
    have hrest : SliceNN rest := fun x hx => hq x (List.mem_cons_of_mem _ hx)
    unfold consumeQueue
    by_cases h0 : rem ≤ 0
    · rw [if_pos h0]
      exact ⟨le_refl _, le_refl _, hp, hc, hq⟩
    · rw [if_neg h0]
      push_neg at h0
      by_cases hfull : e.amt ≤ rem
      · rw [if_pos hfull]
        cases howner : e.owner
        · obtain ⟨h1, h2, h3, h4, h5⟩ := ih (rem - e.amt) (max 0 (pBal - e.amt)) cBal
            (pD + e.amt) cD hrest (le_max_left 0 _) hc (by linarith) hcd
          exact ⟨by simp only; linarith, by simp only; exact h2, by simp only; exact h3,
                 by simp only; exact h4, by simp only; exact h5⟩
        · obtain ⟨h1, h2, h3, h4, h5⟩ := ih (rem - e.amt) pBal (max 0 (cBal - e.amt))
            pD (cD + e.amt) hrest hp (le_max_left 0 _) hpd (by linarith)
          exact ⟨by simp only; exact h1, by simp only; linarith, by simp only; exact h3,
                 by simp only; exact h4, by simp only; exact h5⟩
      · rw [if_neg hfull]
        push_neg at hfull
        cases howner : e.owner
        · refine ⟨by simp only; linarith, by simp only; exact le_refl _,
                  by simp only; exact le_max_left 0 _, by simp only; exact hc, ?_⟩
          simp only
          intro x hx
          rcases List.mem_cons.mp hx with hx1 | hx2
          · subst hx1; simp only; linarith
          · exact hrest x hx2
        · refine ⟨by simp only; exact le_refl _, by simp only; linarith,
                  by simp only; exact hp, by simp only; exact le_max_left 0 _, ?_⟩
          simp only
          intro x hx
          rcases List.mem_cons.mp hx with hx1 | hx2
          · subst hx1; simp only; linarith
          · exact hrest x hx2

/-! ## C1 — redemption exceeding a positive pool balance -/

/-- Balance-Method over-redemption: cost is capped at the pool balance, the
pool is zeroed, and the overage is split by the stored shares into the two
profit-share counters. -/
theorem bm_overredeem_spec (b : BmState) (amt : ℚ) (attr : List Char)
    (t : Option ℕ) (info : PoolB)
    (hamt : 0 < amt) (hinv : isInvestmentProduct attr = true)
    (hfind : findPoolB b.pools attr = some info)
    (hT : 0 < info.totalAmt) (hTA : info.totalAmt < amt) :
    (findPoolB (b.processRedemption amt attr t).1.pools attr).map PoolB.totalAmt = some 0 ∧
    (b.processRedemption amt attr t).1.personalProfit
      = formatNumber (b.personalProfit + (amt - info.totalAmt) * info.personalShare) ∧
    (b.processRedemption amt attr t).1.companyProfit
      = formatNumber (b.companyProfit + (amt - info.totalAmt) * info.companyShare) ∧
    (b.processRedemption amt attr t).2.1 = info.personalShare ∧
    (b.processRedemption amt attr t).2.2.1 = info.companyShare := by
  have hminT : min amt info.totalAmt = info.totalAmt := min_eq_right (le_of_lt hTA)
  unfold BmState.processRedemption
  rw [if_neg (not_le.mpr hamt), if_neg (by rw [hinv]; simp)]
  simp only [hfind]
  refine ⟨?_, ?_, ?_, trivial, trivial⟩
  · rw [findPoolB_setPoolB_self]
    split_ifs <;> simp_all [hminT]
  · split_ifs <;> simp_all [hminT]
  · split_ifs <;> simp_all [hminT]

/-- FIFO over-redemption: the uncapped fraction `金额/总金额` makes the matched
cost equal the full amount, the pool balance falls to `总金额 − 金额` (negative),
the computed gain is exactly zero, and the profit-share counters are
untouched. -/
theorem fifo_overredeem_spec (s : FifoState) (amt : ℚ) (attr : List Char)
    (t : Option ℕ) (info : PoolF)
    (hamt : 0 < amt) (hparse : parseInvestmentId attr = some attr)
    (hfind : findPool s.pools attr = some info)
    (hT : 0 < info.totalAmt) (hTA : info.totalAmt < amt)
    (hsh : ¬ (info.latestPersonalShare = 0 ∧ info.latestCompanyShare = 0)) :
    (findPool (s.processRedemption amt attr t).1.pools attr).map PoolF.totalAmt
      = some (info.totalAmt - amt) ∧
    (s.processRedemption amt attr t).1.personalProfit = s.personalProfit ∧
    (s.processRedemption amt attr t).1.companyProfit = s.companyProfit := by
  have hc : info.totalAmt * (amt / info.totalAmt) = amt := by
    field_simp
  unfold FifoState.processRedemption
  rw [if_neg (not_le.mpr hamt), hparse]
  simp only [hfind, if_neg hsh, if_pos hT, hc, sub_self, lt_self_iff_false, if_false]
  refine ⟨?_, ?_, ?_⟩
  · rw [findPool_setPool_self]
    rfl
  · split_ifs <;> rfl
  · split_ifs <;> rfl

/-- C1 counterexample: on the FIFO tracker (`计算.py 处理投资产品赎回`, the same
arithmetic as `InvestmentProductManager.处理投资产品赎回`), redeeming 150 from a
pool holding 100 leaves the pool at −50 — not 0 — with zero realized gain and
no profit-share accrual, so the claim as stated is false on two of its three
cited implementations. -/
theorem C1_overredemption_counterexample :
    ¬ ((findPool (c1fifo.processRedemption 150 attrLC none).1.pools attrLC).map
          PoolF.totalAmt = some 0) ∧
    (findPool (c1fifo.processRedemption 150 attrLC none).1.pools attrLC).map
        PoolF.totalAmt = some (-50) ∧
    (c1fifo.processRedemption 150 attrLC none).1.personalProfit = 0 ∧
    (c1fifo.processRedemption 150 attrLC none).1.companyProfit = 0 ∧
    (findPool (imRedemption [(attrLC, c1poolF)] attrLC 150).1 attrLC).map
        PoolF.totalAmt = some (-50) := by
  obtain ⟨h1, h2, h3⟩ := fifo_overredeem_spec c1fifo 150 attrLC none c1poolF
    (by norm_num) (by decide) rfl (by norm_num [c1poolF]) (by norm_num [c1poolF])
    (by norm_num [c1poolF])
  have hm : (findPool (imRedemption [(attrLC, c1poolF)] attrLC 150).1 attrLC).map
      PoolF.totalAmt = some (-50) := by
    unfold imRedemption
    rw [show findPool [(attrLC, c1poolF)] attrLC = some c1poolF from by
      unfold findPool; rw [if_pos rfl]]
    simp only
    rw [if_neg (by norm_num [c1poolF])]
    simp only [if_pos (by norm_num [c1poolF] : (0:ℚ) < c1poolF.totalAmt)]
    rw [findPool_setPool_self]
    simp [c1poolF]
    norm_num
  refine ⟨?_, ?_, ?_, ?_, hm⟩
  · rw [h1]
    norm_num [c1poolF]
  · rw [h1]
    norm_num [c1poolF]
  · rw [h2]
    norm_num [c1fifo, FifoState.init]
  · rw [h3]
    norm_num [c1fifo, FifoState.init]

/-- C1 (amended): only the Balance-Method tracker satisfies the claim — for a
redemption of A from an existing pool with 0 < total < A it zeroes the pool and
accrues the overage A − total, split by the stored shares, to the two
profit-share counters; in the FIFO tracker and `InvestmentProductManager` the
uncapped redemption fraction makes the matched cost equal A, driving the pool
to total − A (negative) with zero computed gain and no profit accrual. -/
theorem C1_overredemption_amended :
    (∀ (b : BmState) (amt : ℚ) (attr : List Char) (t : Option ℕ) (info : PoolB),
      0 < amt → isInvestmentProduct attr = true →
      findPoolB b.pools attr = some info →
      0 < info.totalAmt → info.totalAmt < amt →
      (findPoolB (b.processRedemption amt attr t).1.pools attr).map PoolB.totalAmt = some 0 ∧
      (b.processRedemption amt attr t).1.personalProfit
        = formatNumber (b.personalProfit + (amt - info.totalAmt) * info.personalShare) ∧
      (b.processRedemption amt attr t).1.companyProfit
        = formatNumber (b.companyProfit + (amt - info.totalAmt) * info.companyShare) ∧
      (b.processRedemption amt attr t).2.1 = info.personalShare ∧
      (b.processRedemption amt attr t).2.2.1 = info.companyShare) ∧
    (∀ (s : FifoState) (amt : ℚ) (attr : List Char) (t : Option ℕ) (info : PoolF),
      0 < amt → parseInvestmentId attr = some attr →
      findPool s.pools attr = some info →
      0 < info.totalAmt → info.totalAmt < amt →
      ¬ (info.latestPersonalShare = 0 ∧ info.latestCompanyShare = 0) →
      (findPool (s.processRedemption amt attr t).1.pools attr).map PoolF.totalAmt
        = some (info.totalAmt - amt) ∧
      (s.processRedemption amt attr t).1.personalProfit = s.personalProfit ∧
      (s.processRedemption amt attr t).1.companyProfit = s.companyProfit) :=
  ⟨fun b amt attr t info h1 h2 h3 h4 h5 => bm_overredeem_spec b amt attr t info h1 h2 h3 h4 h5,
   fun s amt attr t info h1 h2 h3 h4 h5 h6 =>
     fifo_overredeem_spec s amt attr t info h1 h2 h3 h4 h5 h6⟩

/-- C1 witness: redeeming 150 from the even-split pool of 100 — the
Balance-Method pool is zeroed with 25/25 accrued to the profit shares, while
the FIFO pool lands at −50 with no accrual. -/
theorem C1_overredemption_witness :
    (findPoolB (c1bm.processRedemption 150 attrLC none).1.pools attrLC).map
        PoolB.totalAmt = some 0 ∧
    (c1bm.processRedemption 150 attrLC none).1.personalProfit = 25 ∧
    (c1bm.processRedemption 150 attrLC none).1.companyProfit = 25 ∧
    (findPool (c1fifo.processRedemption 150 attrLC none).1.pools attrLC).map
        PoolF.totalAmt = some (-50) := by
  obtain ⟨h1, h2, h3, _, _⟩ := C1_overredemption_amended.1 c1bm 150 attrLC none c1poolB
    (by norm_num) (by decide) rfl (by norm_num [c1poolB]) (by norm_num [c1poolB])
  obtain ⟨h4, _, _⟩ := C1_overredemption_amended.2 c1fifo 150 attrLC none c1poolF
    (by norm_num) (by decide) rfl (by norm_num [c1poolF]) (by norm_num [c1poolF])
    (by norm_num [c1poolF])
  refine ⟨h1, ?_, ?_, ?_⟩
  · rw [h2]
    norm_num [c1bm, c1poolB, BmState.init]
    norm_num [formatNumber, roundHalfEven]
  · rw [h3]
    norm_num [c1bm, c1poolB, BmState.init]
    norm_num [formatNumber, roundHalfEven]
  · rw [h4]
    norm_num [c1poolF]

/-! ## C2 — contribution into a negative pool -/

/-- `InvestmentProductManager.更新投资产品` on a negative pool: the three
amount fields are overwritten with the new contribution (equivalently zeroed
and re-filled) and the latest shares taken from it; the pool shape has no
realized-profit history to append to. -/
theorem im_reset_spec (pools : List (List Char × PoolF)) (pid : List Char)
    (amt pSh cSh : ℚ) (info : PoolF)
    (hfind : findPool pools pid = some info) (hneg : info.totalAmt < 0) :
    findPool (imUpdateProduct pools pid amt pSh cSh) pid =
      some { personalAmt := amt * pSh, companyAmt := amt * cSh, totalAmt := amt,
             cumPurchase := info.cumPurchase + amt, cumRedemption := info.cumRedemption,
             latestPersonalShare := pSh, latestCompanyShare := cSh } := by
  unfold imUpdateProduct
  simp only [hfind, Option.getD_some, if_pos hneg]
  rw [findPool_setPool_self]

/-- `BalanceMethodTracker._更新投资产品资金池` on a negative pool: no reset at
all — the contribution is accumulated onto the negative total and the
`历史盈利记录` / `累计已实现盈利` fields are left untouched. -/
theorem bm_no_reset_spec (b : BmState) (pid : List Char) (amt pSh cSh : ℚ)
    (t : Option ℕ) (info : PoolB)
    (hfind : findPoolB b.pools pid = some info) (_hneg : info.totalAmt < 0) :
    (findPoolB (b.updatePool pid amt pSh cSh t).pools pid).map PoolB.totalAmt
      = some (info.totalAmt + amt) ∧
    (findPoolB (b.updatePool pid amt pSh cSh t).pools pid).map PoolB.resetHist
      = some info.resetHist ∧
    (findPoolB (b.updatePool pid amt pSh cSh t).pools pid).map PoolB.cumRealized
      = some info.cumRealized := by
  unfold BmState.updatePool
  simp only [hfind, Option.getD_some]
  refine ⟨?_, ?_, ?_⟩ <;>
    · simp only [findPoolB_setPoolB_self]
      split_ifs <;> rfl

/-- C2 counterexample: contributing 50000 into the Balance-Method pool left at
−100000 yields total −50000 (not the claimed reset result 50000), with
`历史盈利记录` still empty and `累计已实现盈利` still 0 — no reset event is
recorded anywhere. -/
theorem C2_negative_pool_counterexample :
    (findPoolB (c2bm.updatePool attrLC 50000 (1/2) (1/2) none).pools attrLC).map
        PoolB.totalAmt = some (-50000) ∧
    ¬ ((findPoolB (c2bm.updatePool attrLC 50000 (1/2) (1/2) none).pools attrLC).map
        PoolB.totalAmt = some 50000) ∧
    (findPoolB (c2bm.updatePool attrLC 50000 (1/2) (1/2) none).pools attrLC).map
        PoolB.resetHist = some [] ∧
    (findPoolB (c2bm.updatePool attrLC 50000 (1/2) (1/2) none).pools attrLC).map
        PoolB.cumRealized = some 0 := by
  obtain ⟨h1, h2, h3⟩ := bm_no_reset_spec c2bm attrLC 50000 (1/2) (1/2) none c2poolB
    rfl (by norm_num [c2poolB, PoolB.fresh])
  refine ⟨?_, ?_, ?_, ?_⟩
  · rw [h1]
    norm_num [c2poolB, PoolB.fresh]
  · rw [h1]
    norm_num [c2poolB, PoolB.fresh]
  · rw [h2]
    norm_num [c2poolB, PoolB.fresh]
  · rw [h3]
    norm_num [c2poolB, PoolB.fresh]

/-- C2 (amended): no implementation appends a reset event.  In
`InvestmentProductManager` (and the FIFO tracker's inline copy) a contribution
into a negative pool overwrites the three amount fields with the new
contribution and takes the latest shares from it — equivalent to zeroing then
adding, but with no realized-profit history or cumulative counter, which do
not exist on that pool shape.  In the Balance-Method tracker no reset happens
at all: the contribution is added onto the negative total and the
`历史盈利记录` / `累计已实现盈利` fields (initialized for this purpose) are
never written. -/
theorem C2_negative_pool_contribution_amended :
    (∀ (pools : List (List Char × PoolF)) (pid : List Char) (amt pSh cSh : ℚ)
        (info : PoolF), findPool pools pid = some info → info.totalAmt < 0 →
      findPool (imUpdateProduct pools pid amt pSh cSh) pid =
        some { personalAmt := amt * pSh, companyAmt := amt * cSh, totalAmt := amt,
               cumPurchase := info.cumPurchase + amt, cumRedemption := info.cumRedemption,
               latestPersonalShare := pSh, latestCompanyShare := cSh }) ∧
    (∀ (b : BmState) (pid : List Char) (amt pSh cSh : ℚ) (t : Option ℕ) (info : PoolB),
        findPoolB b.pools pid = some info → info.totalAmt < 0 →
      (findPoolB (b.updatePool pid amt pSh cSh t).pools pid).map PoolB.totalAmt
        = some (info.totalAmt + amt) ∧
      (findPoolB (b.updatePool pid amt pSh cSh t).pools pid).map PoolB.resetHist
        = some info.resetHist ∧
      (findPoolB (b.updatePool pid amt pSh cSh t).pools pid).map PoolB.cumRealized
        = some info.cumRealized) :=
  ⟨fun pools pid amt pSh cSh info h1 h2 => im_reset_spec pools pid amt pSh cSh info h1 h2,
   fun b pid amt pSh cSh t info h1 h2 => bm_no_reset_spec b pid amt pSh cSh t info h1 h2⟩

/-- C2 witness: contributing 50000 at an even split into pools left at
−100000 — the manager pool is reset to exactly the new contribution, the
Balance-Method pool merely rises to −50000. -/
theorem C2_negative_pool_contribution_witness :
    findPool (imUpdateProduct [(attrLC, c2poolF)] attrLC 50000 (1/2) (1/2)) attrLC =
      some { personalAmt := 25000, companyAmt := 25000, totalAmt := 50000,
             cumPurchase := 50000, cumRedemption := 0,
             latestPersonalShare := 1/2, latestCompanyShare := 1/2 } ∧
    (findPoolB (c2bm.updatePool attrLC 50000 (1/2) (1/2) none).pools attrLC).map
        PoolB.totalAmt = some (-50000) := by
  constructor
  · have h := C2_negative_pool_contribution_amended.1 [(attrLC, c2poolF)] attrLC
      50000 (1/2) (1/2) c2poolF rfl (by norm_num [c2poolF, PoolF.fresh])
    rw [h]
    norm_num [c2poolF, PoolF.fresh]
  · have h := (C2_negative_pool_contribution_amended.2 c2bm attrLC 50000 (1/2) (1/2)
      none c2poolB rfl (by norm_num [c2poolB, PoolB.fresh])).1
    rw [h]
    norm_num [c2poolB, PoolB.fresh]

/-! ## C6 — FIFO investment-debit split ratios -/

/-- C6 counterexample: with liquid funds 30 personal / 20 company and an
investment debit of 100, the FIFO tracker returns ratios (3/5, 2/5) — relative
to the 50 actually deducted — not (30/100, 20/100) relative to the requested
amount, so the claim is false when the balance cannot cover the request. -/
theorem C6_invest_ratio_counterexample :
    (c6fifo.processOutflow 100 attrLC none).2.1 = 3/5 ∧
    (c6fifo.processOutflow 100 attrLC none).2.2.1 = 2/5 ∧
    ¬ ((c6fifo.processOutflow 100 attrLC none).2.1 = 30/100) ∧
    ¬ ((c6fifo.processOutflow 100 attrLC none).2.2.1 = 20/100) := by
  have hp : parseInvestmentId attrLC = some attrLC := by decide
  have hcq : consumeQueue c6fifo.queue
      (if c6fifo.personalBal + c6fifo.companyBal < 100 then
        c6fifo.personalBal + c6fifo.companyBal else 100)
      c6fifo.personalBal c6fifo.companyBal 0 0 = (30, 20, 0, 0, []) := by
    norm_num [c6fifo, FifoState.init, consumeQueue]
  unfold FifoState.processOutflow FifoState.processOutflowInvest
  rw [hp]
  simp only [if_neg (by norm_num : ¬ (100:ℚ) ≤ 0),
    if_neg (by norm_num [c6fifo, FifoState.init] :
      ¬ c6fifo.personalBal + c6fifo.companyBal ≤ 0), hcq]
  norm_num

/-- C6 (amended): a FIFO debit with an investment attribute returns split
ratios relative to the total actually deducted — `min(A, available)` when the
queue total matches the balances — so they always sum to 1; only when the
available balance covers A do they coincide with ratios over A. -/
theorem C6_invest_ratio_amended (s : FifoState) (amt : ℚ) (attr : List Char)
    (t : Option ℕ) (hamt : 0 < amt) (hparse : parseInvestmentId attr = some attr)
    (hP : 0 ≤ s.personalBal) (hC : 0 ≤ s.companyBal)
    (htot : 0 < s.personalBal + s.companyBal)
    (hq : SliceNN s.queue)
    (hsum : sliceSum s.queue = s.personalBal + s.companyBal) :
    ∃ pDed cDed : ℚ, 0 ≤ pDed ∧ 0 ≤ cDed ∧
      pDed + cDed = min amt (s.personalBal + s.companyBal) ∧
      (s.processOutflow amt attr t).2.1 = pDed / (pDed + cDed) ∧
      (s.processOutflow amt attr t).2.2.1 = cDed / (pDed + cDed) ∧
      (s.processOutflow amt attr t).2.1 + (s.processOutflow amt attr t).2.2.1 = 1 := by
  have hamtEffMin : (if s.personalBal + s.companyBal < amt then s.personalBal + s.companyBal
      else amt) = min amt (s.personalBal + s.companyBal) := by
    rw [min_comm, min_def]
    split_ifs <;> first | rfl | linarith
  have hEffNN : 0 ≤ (if s.personalBal + s.companyBal < amt then s.personalBal + s.companyBal
      else amt) := by
    rw [hamtEffMin]
    exact le_min (le_of_lt hamt) (le_of_lt htot)
  have key := consumeQueue_total s.queue
    (if s.personalBal + s.companyBal < amt then s.personalBal + s.companyBal else amt)
    s.personalBal s.companyBal 0 0 hq hEffNN
  have hnn := consumeQueue_nonneg s.queue
    (if s.personalBal + s.companyBal < amt then s.personalBal + s.companyBal else amt)
    s.personalBal s.companyBal 0 0 hq hP hC (le_refl 0) (le_refl 0)
  have key2 : (consumeQueue s.queue
      (if s.personalBal + s.companyBal < amt then s.personalBal + s.companyBal else amt)
      s.personalBal s.companyBal 0 0).1 + (consumeQueue s.queue
      (if s.personalBal + s.companyBal < amt then s.personalBal + s.companyBal else amt)
      s.personalBal s.companyBal 0 0).2.1 = min amt (s.personalBal + s.companyBal) := by
    rw [key, hsum, min_eq_left (by rw [hamtEffMin]; exact min_le_right _ _), hamtEffMin]
    ring
  have hpos : 0 < (consumeQueue s.queue
      (if s.personalBal + s.companyBal < amt then s.personalBal + s.companyBal else amt)
      s.personalBal s.companyBal 0 0).1 + (consumeQueue s.queue
      (if s.personalBal + s.companyBal < amt then s.personalBal + s.companyBal else amt)
      s.personalBal s.companyBal 0 0).2.1 := by
    rw [key2]
    exact lt_min hamt htot
  unfold FifoState.processOutflow FifoState.processOutflowInvest
  rw [if_neg (not_le.mpr hamt), hparse]
  simp only [if_neg (not_le.mpr hamt), if_neg (not_le.mpr htot), if_pos hpos]
  refine ⟨_, _, hnn.1, hnn.2.1, key2, rfl, rfl, ?_⟩
  rw [div_add_div_same, div_self (ne_of_gt hpos)]

/-- C6 witness: the amended statement applied to the shortfall scenario —
with 50 available against a request of 100, the deducted parts sum to
min(100, 50) = 50 and the returned ratios sum to 1. -/
theorem C6_invest_ratio_amended_witness :
    ∃ pDed cDed : ℚ, 0 ≤ pDed ∧ 0 ≤ cDed ∧
      pDed + cDed = min 100 (c6fifo.personalBal + c6fifo.companyBal) ∧
      (c6fifo.processOutflow 100 attrLC none).2.1 = pDed / (pDed + cDed) ∧
      (c6fifo.processOutflow 100 attrLC none).2.2.1 = cDed / (pDed + cDed) ∧
      (c6fifo.processOutflow 100 attrLC none).2.1 +
        (c6fifo.processOutflow 100 attrLC none).2.2.1 = 1 :=
  C6_invest_ratio_amended c6fifo 100 attrLC none (by norm_num) (by decide)
    (by norm_num [c6fifo, FifoState.init]) (by norm_num [c6fifo, FifoState.init])
    (by norm_num [c6fifo, FifoState.init])
    (by intro e he; fin_cases he <;> norm_num)
    (by norm_num [c6fifo, FifoState.init, sliceSum])

/-! ## C4 — machinery: invariant preservation lemma kit -/

/-- Appending non-negative slices preserves queue non-negativity. -/
theorem SliceNN_append {q q' : List Slice} (h : SliceNN q) (h' : SliceNN q') :
    SliceNN (q ++ q') := by
  intro e he
  rcases List.mem_append.mp he with h1 | h2
  · exact h e h1
  · exact h' e h2

/-- A singleton queue of one non-negative slice. -/
theorem SliceNN_single {a : ℚ} {o : Owner} {t : Option ℕ} (ha : 0 ≤ a) :
    SliceNN [⟨a, o, t⟩] := by
  intro e he
  rcases List.mem_singleton.mp he with rfl
  exact ha

/-- A found pool is a member of the dictionary. -/
theorem findPool_mem {m : List (List Char × PoolF)} {k : List Char} {v : PoolF} :
    findPool m k = some v → (k, v) ∈ m := by
  induction m with
  | nil => intro h; simp [findPool] at h
  | cons kv rest ih =>
    obtain ⟨k', v'⟩ := kv
    intro h
    unfold findPool at h
    by_cases hk : k' = k
    · rw [if_pos hk] at h
      subst hk
      cases h
      exact List.mem_cons_self _ _
    · rw [if_neg hk] at h
      exact List.mem_cons_of_mem _ (ih h)

/-- Writing a value satisfying a pool property preserves it across the map. -/
theorem setPool_forall {P : PoolF → Prop} {m : List (List Char × PoolF)}
    {k : List Char} {v : PoolF} (h : ∀ kp ∈ m, P kp.2) (hv : P v) :
    ∀ kp ∈ setPool m k v, P kp.2 := by
  induction m with
  | nil =>
    intro kp hkp
    unfold setPool at hkp
    rcases List.mem_singleton.mp hkp with rfl
    exact hv
  | cons kv rest ih =>
    obtain ⟨k', v'⟩ := kv
    intro kp hkp
    unfold setPool at hkp
    by_cases hk : k' = k
    · rw [if_pos hk] at hkp
      rcases List.mem_cons.mp hkp with rfl | hmem
      · exact hv
      · exact h kp (List.mem_cons_of_mem _ hmem)
    · rw [if_neg hk] at hkp
      rcases List.mem_cons.mp hkp with rfl | hmem
      · exact h _ (List.mem_cons_self _ _)
      · exact ih (fun x hx => h x (List.mem_cons_of_mem _ hx)) kp hmem

/-- A found Balance-Method pool is a member of the dictionary. -/
theorem findPoolB_mem {m : List (List Char × PoolB)} {k : List Char} {v : PoolB} :
    findPoolB m k = some v → (k, v) ∈ m := by
  induction m with
  | nil => intro h; simp [findPoolB] at h
  | cons kv rest ih =>
    obtain ⟨k', v'⟩ := kv
    intro h
    unfold findPoolB at h
    by_cases hk : k' = k
    · rw [if_pos hk] at h
      subst hk
      cases h
      exact List.mem_cons_self _ _
    · rw [if_neg hk] at h
      exact List.mem_cons_of_mem _ (ih h)

/-- Writing a value satisfying a pool property preserves it (Balance-Method). -/
theorem setPoolB_forall {P : PoolB → Prop} {m : List (List Char × PoolB)}
    {k : List Char} {v : PoolB} (h : ∀ kp ∈ m, P kp.2) (hv : P v) :
    ∀ kp ∈ setPoolB m k v, P kp.2 := by
  induction m with
  | nil =>
    intro kp hkp
    unfold setPoolB at hkp
    rcases List.mem_singleton.mp hkp with rfl
    exact hv
  | cons kv rest ih =>
    obtain ⟨k', v'⟩ := kv
    intro kp hkp
    unfold setPoolB at hkp
    by_cases hk : k' = k
    · rw [if_pos hk] at hkp
      rcases List.mem_cons.mp hkp with rfl | hmem
      · exact hv
      · exact h kp (List.mem_cons_of_mem _ hmem)
    · rw [if_neg hk] at hkp
      rcases List.mem_cons.mp hkp with rfl | hmem
      · exact h _ (List.mem_cons_self _ _)
      · exact ih (fun x hx => h x (List.mem_cons_of_mem _ hx)) kp hmem

/-- Reflexivity of the counter order (FIFO). -/
theorem fifo_countersLe_refl (s : FifoState) : s.countersLe s :=
  ⟨le_refl _, le_refl _, le_refl _, le_refl _⟩

/-- Transitivity of the counter order (FIFO). -/
theorem fifo_countersLe_trans {a b c : FifoState}
    (h1 : a.countersLe b) (h2 : b.countersLe c) : a.countersLe c :=
  ⟨le_trans h1.1 h2.1, le_trans h1.2.1 h2.2.1, le_trans h1.2.2.1 h2.2.2.1,
   le_trans h1.2.2.2 h2.2.2.2⟩

/-- Reflexivity of the counter order (Balance-Method). -/
theorem bm_countersLe_refl (s : BmState) : s.countersLe s :=
  ⟨le_refl _, le_refl _, le_refl _, le_refl _⟩

/-- Transitivity of the counter order (Balance-Method). -/
theorem bm_countersLe_trans {a b c : BmState}
    (h1 : a.countersLe b) (h2 : b.countersLe c) : a.countersLe c :=
  ⟨le_trans h1.1 h2.1, le_trans h1.2.1 h2.2.1, le_trans h1.2.2.1 h2.2.2.1,
   le_trans h1.2.2.2 h2.2.2.2⟩

/-- The fresh FIFO tracker satisfies the state invariant. -/
theorem fifo_init_inv : FifoState.Inv FifoState.init :=
  ⟨le_refl 0, le_refl 0, fun e he => absurd he (List.not_mem_nil e),
   fun kp hkp => absurd hkp (List.not_mem_nil kp),
   Formatted.zero, Formatted.zero, Formatted.zero, Formatted.zero, Formatted.zero⟩

/-- The fresh Balance-Method tracker satisfies the state invariant. -/
theorem bm_init_inv : BmState.Inv BmState.init :=
  ⟨le_refl 0, le_refl 0, fun kp hkp => absurd hkp (List.not_mem_nil kp),
   Formatted.zero, Formatted.zero, Formatted.zero, Formatted.zero,
   Formatted.zero, Formatted.zero, Formatted.zero, Formatted.zero⟩

/-- `初始化余额` preserves the invariant and never moves a counter. -/
theorem fifo_initBalance_spec (s : FifoState) (a : ℚ) (o : Owner) (h : s.Inv) :
    (s.initBalance a o).Inv ∧ s.countersLe (s.initBalance a o) := by
  obtain ⟨h1, h2, h3, h4, h5, h6, h7, h8, h9⟩ := h
  unfold FifoState.initBalance FifoState.Inv FifoState.countersLe
  split_ifs with hc
  · cases o
    · exact ⟨⟨le_of_lt hc.2, h2, SliceNN_append h3 (SliceNN_single (le_of_lt hc.2)),
        h4, h5, h6, h7, h8, h9⟩, le_refl _, le_refl _, le_refl _, le_refl _⟩
    · exact ⟨⟨h1, le_of_lt hc.2, SliceNN_append h3 (SliceNN_single (le_of_lt hc.2)),
        h4, h5, h6, h7, h8, h9⟩, le_refl _, le_refl _, le_refl _, le_refl _⟩
  · exact ⟨⟨h1, h2, h3, h4, h5, h6, h7, h8, h9⟩, le_refl _, le_refl _, le_refl _, le_refl _⟩

theorem fifo_inflow_spec (s : FifoState) (a : ℚ) (attr : List Char) (t : Option ℕ)
    (h : s.Inv) :
    (s.processInflow a attr t).1.Inv ∧ s.countersLe (s.processInflow a attr t).1 := by
  obtain ⟨h1, h2, h3, h4, h5, h6, h7, h8, h9⟩ := h
  unfold FifoState.processInflow FifoState.Inv FifoState.countersLe
  simp only
  split_ifs with hc1 hc2 hc3 hc4 <;> dsimp only
  · exact ⟨⟨h1, h2, h3, h4, h5, h6, h7, h8, h9⟩, le_refl _, le_refl _, le_refl _, le_refl _⟩
  · push_neg at hc1
    exact ⟨⟨by linarith, h2, SliceNN_append h3 (SliceNN_single (by linarith)),
      h4, h5, h6, h7, h8, h9⟩, le_refl _, le_refl _, le_refl _, le_refl _⟩
  · push_neg at hc1
    exact ⟨⟨h1, by linarith, SliceNN_append h3 (SliceNN_single (by linarith)),
      h4, h5, h6, h7, h8, h9⟩, le_refl _, le_refl _, le_refl _, le_refl _⟩
  · push_neg at hc1
    refine ⟨⟨by linarith, by linarith, SliceNN_append h3 ?_, h4, h5, h6, h7, h8, h9⟩,
      le_refl _, le_refl _, le_refl _, le_refl _⟩
    intro e he
    rcases List.mem_cons.mp he with rfl | he2
    · simp only
      linarith
    · rcases List.mem_singleton.mp he2 with rfl
      simp only
      linarith
  · push_neg at hc1
    have htotpos : 0 < s.personalBal + s.companyBal :=
      lt_of_le_of_ne (by linarith) (Ne.symm hc4)
    have hps : 0 ≤ s.personalBal / (s.personalBal + s.companyBal) := by positivity
    have hcs : 0 ≤ s.companyBal / (s.personalBal + s.companyBal) := by positivity
    refine ⟨⟨by nlinarith, by nlinarith, SliceNN_append h3 ?_, h4, h5, h6, h7, h8, h9⟩,
      le_refl _, le_refl _, le_refl _, le_refl _⟩
    intro e he
    rcases List.mem_cons.mp he with rfl | he2
    · simp only
      nlinarith
    · rcases List.mem_singleton.mp he2 with rfl
      simp only
      nlinarith

set_option maxHeartbeats 1000000 in
theorem fifo_analyze_spec (s : FifoState) (cls : AttrClass) (pD cD tot : ℚ)
    (hpD : 0 ≤ pD) (hcD : 0 ≤ cD)
    (hm : Formatted s.cumMisuse) (ha : Formatted s.cumAdvance) :
    (s.analyzeBehavior cls pD cD tot).1.personalBal = s.personalBal ∧
    (s.analyzeBehavior cls pD cD tot).1.companyBal = s.companyBal ∧
    (s.analyzeBehavior cls pD cD tot).1.queue = s.queue ∧
    (s.analyzeBehavior cls pD cD tot).1.pools = s.pools ∧
    Formatted (s.analyzeBehavior cls pD cD tot).1.cumMisuse ∧
    Formatted (s.analyzeBehavior cls pD cD tot).1.cumAdvance ∧
    (s.analyzeBehavior cls pD cD tot).1.cumIllicit = s.cumIllicit ∧
    (s.analyzeBehavior cls pD cD tot).1.personalProfit = s.personalProfit ∧
    (s.analyzeBehavior cls pD cD tot).1.companyProfit = s.companyProfit ∧
    s.cumMisuse ≤ (s.analyzeBehavior cls pD cD tot).1.cumMisuse ∧
    s.cumAdvance ≤ (s.analyzeBehavior cls pD cD tot).1.cumAdvance := by
  unfold FifoState.analyzeBehavior
  cases cls <;> dsimp only <;> split_ifs <;>
    first
      | exact ⟨rfl, rfl, rfl, rfl, hm, ha, rfl, rfl, rfl, le_refl _, le_refl _⟩
      | exact ⟨rfl, rfl, rfl, rfl, hm.accrue hcD, ha, rfl, rfl, rfl,
          formatNumber_accrue_le hm hcD, le_refl _⟩
      | exact ⟨rfl, rfl, rfl, rfl, hm, ha.accrue hpD, rfl, rfl, rfl, le_refl _,
          formatNumber_accrue_le ha hpD⟩

theorem fifo_ord_core (s : FifoState) (cls : AttrClass) (pD cD p c : ℚ) (q : List Slice)
    (amt : ℚ) (hpD : 0 ≤ pD) (hcD : 0 ≤ cD) (hp : 0 ≤ p) (hc : 0 ≤ c) (hq : SliceNN q)
    (h : s.Inv) :
    (({ s with personalBal := p, companyBal := c, queue := q } : FifoState).analyzeBehavior
        cls pD cD amt).1.Inv ∧
    s.countersLe (({ s with personalBal := p, companyBal := c, queue := q } :
        FifoState).analyzeBehavior cls pD cD amt).1 := by
  obtain ⟨h1, h2, h3, h4, h5, h6, h7, h8, h9⟩ := h
  obtain ⟨a1, a2, a3, a4, a5, a6, a7, a8, a9, a10, a11⟩ :=
    fifo_analyze_spec { s with personalBal := p, companyBal := c, queue := q }
      cls pD cD amt hpD hcD h5 h6
  refine ⟨⟨?_, ?_, ?_, ?_, a5, a6, ?_, ?_, ?_⟩, ?_, ?_, ?_, ?_⟩
  · rw [a1]; exact hp
  · rw [a2]; exact hc
  · rw [a3]; exact hq
  · rw [a4]; exact h4
  · rw [a7]; exact h7
  · rw [a8]; exact h8
  · rw [a9]; exact h9
  · exact a10
  · exact a11
  · rw [a8]
  · rw [a9]

theorem fifo_outflow_ord_spec (s : FifoState) (amt : ℚ) (attr : List Char) (t : Option ℕ)
    (h : s.Inv) :
    (s.processOutflowOrdinary amt attr t).1.Inv ∧
    s.countersLe (s.processOutflowOrdinary amt attr t).1 := by
  have h' := h
  obtain ⟨h1, h2, h3, h4, h5, h6, h7, h8, h9⟩ := h'
  unfold FifoState.processOutflowOrdinary
  by_cases hc1 : amt ≤ 0
  · rw [if_pos hc1]
    exact ⟨h, fifo_countersLe_refl s⟩
  · rw [if_neg hc1]
    simp only
    by_cases hc2 : s.personalBal + s.companyBal ≤ 0
    · rw [if_pos hc2]
      exact ⟨h, fifo_countersLe_refl s⟩
    · rw [if_neg hc2]
      by_cases hreb : s.queue = [] ∧ 0 < s.personalBal + s.companyBal
      · rw [if_pos hreb]
        by_cases hp : 0 < s.personalBal
        · rw [if_pos hp]
          by_cases hcb : 0 < s.companyBal
          · rw [if_pos hcb]
            have hnn := consumeQueue_nonneg
              ([(⟨s.personalBal, Owner.personal, t⟩ : Slice)] ++
                [(⟨s.companyBal, Owner.company, t⟩ : Slice)])
              (min amt (s.personalBal + s.companyBal)) s.personalBal s.companyBal 0 0
              (SliceNN_append (SliceNN_single h1) (SliceNN_single h2)) h1 h2
              (le_refl 0) (le_refl 0)
            generalize hR : consumeQueue
              ([(⟨s.personalBal, Owner.personal, t⟩ : Slice)] ++
                [(⟨s.companyBal, Owner.company, t⟩ : Slice)])
              (min amt (s.personalBal + s.companyBal)) s.personalBal s.companyBal 0 0
              = R at hnn ⊢
            obtain ⟨n1, n2, n3, n4, n5⟩ := hnn
            dsimp only
            exact fifo_ord_core s (classifyAttrLegacy attr) R.1 R.2.1 R.2.2.1 R.2.2.2.1
              R.2.2.2.2 amt n1 n2 n3 n4 n5 h
          · rw [if_neg hcb]
            have hnn := consumeQueue_nonneg
              ([(⟨s.personalBal, Owner.personal, t⟩ : Slice)] ++ [])
              (min amt (s.personalBal + s.companyBal)) s.personalBal s.companyBal 0 0
              (SliceNN_append (SliceNN_single h1)
                (fun e he => absurd he (List.not_mem_nil e))) h1 h2
              (le_refl 0) (le_refl 0)
            generalize hR : consumeQueue
              ([(⟨s.personalBal, Owner.personal, t⟩ : Slice)] ++ [])
              (min amt (s.personalBal + s.companyBal)) s.personalBal s.companyBal 0 0
              = R at hnn ⊢
            obtain ⟨n1, n2, n3, n4, n5⟩ := hnn
            dsimp only
            exact fifo_ord_core s (classifyAttrLegacy attr) R.1 R.2.1 R.2.2.1 R.2.2.2.1
              R.2.2.2.2 amt n1 n2 n3 n4 n5 h
        · rw [if_neg hp]
          by_cases hcb : 0 < s.companyBal
          · rw [if_pos hcb]
            have hnn := consumeQueue_nonneg
              ([] ++ [(⟨s.companyBal, Owner.company, t⟩ : Slice)])
              (min amt (s.personalBal + s.companyBal)) s.personalBal s.companyBal 0 0
              (SliceNN_append (fun e he => absurd he (List.not_mem_nil e))
                (SliceNN_single h2)) h1 h2
              (le_refl 0) (le_refl 0)
            generalize hR : consumeQueue
              ([] ++ [(⟨s.companyBal, Owner.company, t⟩ : Slice)])
              (min amt (s.personalBal + s.companyBal)) s.personalBal s.companyBal 0 0
              = R at hnn ⊢
            obtain ⟨n1, n2, n3, n4, n5⟩ := hnn
            dsimp only
            exact fifo_ord_core s (classifyAttrLegacy attr) R.1 R.2.1 R.2.2.1 R.2.2.2.1
              R.2.2.2.2 amt n1 n2 n3 n4 n5 h
          · rw [if_neg hcb]
            have hnn := consumeQueue_nonneg ([] ++ [])
              (min amt (s.personalBal + s.companyBal)) s.personalBal s.companyBal 0 0
              (SliceNN_append (fun e he => absurd he (List.not_mem_nil e))
                (fun e he => absurd he (List.not_mem_nil e))) h1 h2
              (le_refl 0) (le_refl 0)
            generalize hR : consumeQueue ([] ++ [])
              (min amt (s.personalBal + s.companyBal)) s.personalBal s.companyBal 0 0
              = R at hnn ⊢
            obtain ⟨n1, n2, n3, n4, n5⟩ := hnn
            dsimp only
            exact fifo_ord_core s (classifyAttrLegacy attr) R.1 R.2.1 R.2.2.1 R.2.2.2.1
              R.2.2.2.2 amt n1 n2 n3 n4 n5 h
      · rw [if_neg hreb]
        have hnn := consumeQueue_nonneg s.queue
          (min amt (s.personalBal + s.companyBal)) s.personalBal s.companyBal 0 0
          h3 h1 h2 (le_refl 0) (le_refl 0)
        generalize hR : consumeQueue s.queue
          (min amt (s.personalBal + s.companyBal)) s.personalBal s.companyBal 0 0
          = R at hnn ⊢
        obtain ⟨n1, n2, n3, n4, n5⟩ := hnn
        dsimp only
        exact fifo_ord_core s (classifyAttrLegacy attr) R.1 R.2.1 R.2.2.1 R.2.2.2.1
          R.2.2.2.2 amt n1 n2 n3 n4 n5 h

/-- A fresh FIFO pool satisfies the pool invariant. -/
theorem poolF_fresh_inv : PoolF.Inv PoolF.fresh :=
  ⟨le_refl 0, le_refl 0, fun _ => ⟨le_refl 0, le_refl 0⟩⟩

/-- A fresh Balance-Method pool satisfies the pool invariant. -/
theorem poolB_fresh_inv : PoolB.Inv PoolB.fresh :=
  ⟨le_refl 0, le_refl 0, le_refl 0, le_refl 0, le_refl 0⟩

/-- Reading a pool (with the fresh default) out of an invariant-respecting
dictionary yields an invariant-respecting pool. -/
theorem findPool_getD_inv {m : List (List Char × PoolF)} {k : List Char}
    (h : ∀ kp ∈ m, PoolF.Inv kp.2) : PoolF.Inv ((findPool m k).getD PoolF.fresh) := by
  cases hf : findPool m k with
  | none => exact poolF_fresh_inv
  | some v => exact h (k, v) (findPool_mem hf)

/-- Reading a Balance-Method pool (with the fresh default) out of an
invariant-respecting dictionary yields an invariant-respecting pool. -/
theorem findPoolB_getD_inv {m : List (List Char × PoolB)} {k : List Char}
    (h : ∀ kp ∈ m, PoolB.Inv kp.2) : PoolB.Inv ((findPoolB m k).getD PoolB.fresh) := by
  cases hf : findPoolB m k with
  | none => exact poolB_fresh_inv
  | some v => exact h (k, v) (findPoolB_mem hf)

/-- `处理资金流出_投资` preserves the invariant, never moves a counter
backwards, and returns non-negative split fractions. -/
theorem fifo_outflow_invest_spec (s : FifoState) (amt : ℚ) (t : Option ℕ) (h : s.Inv) :
    (s.processOutflowInvest amt t).1.Inv ∧
    s.countersLe (s.processOutflowInvest amt t).1 ∧
    0 ≤ (s.processOutflowInvest amt t).2.1 ∧
    0 ≤ (s.processOutflowInvest amt t).2.2.1 := by
  have h' := h
  obtain ⟨h1, h2, h3, h4, h5, h6, h7, h8, h9⟩ := h'
  unfold FifoState.processOutflowInvest
  by_cases hc1 : amt ≤ 0
  · rw [if_pos hc1]
    exact ⟨h, fifo_countersLe_refl s, le_refl 0, le_refl 0⟩
  · rw [if_neg hc1]
    simp only
    by_cases hc2 : s.personalBal + s.companyBal ≤ 0
    · rw [if_pos hc2]
      exact ⟨h, fifo_countersLe_refl s, le_refl 0, le_refl 0⟩
    · rw [if_neg hc2]
      have hnn := consumeQueue_nonneg s.queue
        (if s.personalBal + s.companyBal < amt then s.personalBal + s.companyBal else amt)
        s.personalBal s.companyBal 0 0 h3 h1 h2 (le_refl 0) (le_refl 0)
      generalize hR : consumeQueue s.queue
        (if s.personalBal + s.companyBal < amt then s.personalBal + s.companyBal else amt)
        s.personalBal s.companyBal 0 0 = R at hnn ⊢
      obtain ⟨n1, n2, n3, n4, n5⟩ := hnn
      dsimp only
      refine ⟨?_, ?_, ?_, ?_⟩
      · split_ifs with hcd
        · exact ⟨n3, n4, n5, h4, formatNumber_formatted (add_nonneg h5.1 n2),
            h6, h7, h8, h9⟩
        · exact ⟨n3, n4, n5, h4, h5, h6, h7, h8, h9⟩
      · split_ifs with hcd
        · exact ⟨formatNumber_accrue_le h5 n2, le_refl _, le_refl _, le_refl _⟩
        · exact ⟨le_refl _, le_refl _, le_refl _, le_refl _⟩
      · split_ifs with htd
        · exact div_nonneg n1 (le_of_lt htd)
        · exact le_refl 0
      · split_ifs with htd
        · exact div_nonneg n2 (le_of_lt htd)
        · exact le_refl 0

/-- `处理资金流出` (FIFO dispatch) preserves the invariant and never moves a
counter backwards; the investment path's pool write keeps the pool invariant. -/
theorem fifo_outflow_spec (s : FifoState) (amt : ℚ) (attr : List Char) (t : Option ℕ)
    (h : s.Inv) :
    (s.processOutflow amt attr t).1.Inv ∧
    s.countersLe (s.processOutflow amt attr t).1 := by
  unfold FifoState.processOutflow
  by_cases hc1 : amt ≤ 0
  · rw [if_pos hc1]
    exact ⟨h, fifo_countersLe_refl s⟩
  · rw [if_neg hc1]
    push_neg at hc1
    cases hpid : parseInvestmentId attr with
    | none =>
        dsimp only
        exact fifo_outflow_ord_spec s amt attr t h
    | some pid =>
        dsimp only
        obtain ⟨i1, i2, i3, i4⟩ := fifo_outflow_invest_spec s amt t h
        generalize hI : s.processOutflowInvest amt t = I at i1 i2 i3 i4 ⊢
        obtain ⟨j1, j2, j3, j4, j5, j6, j7, j8, j9⟩ := i1
        have hInfo : PoolF.Inv ((findPool I.1.pools pid).getD PoolF.fresh) :=
          findPool_getD_inv j4
        generalize hE : (findPool I.1.pools pid).getD PoolF.fresh = info at hInfo ⊢
        obtain ⟨e1, e2, e3⟩ := hInfo
        refine ⟨⟨j1, j2, j3, setPool_forall j4 ?_, j5, j6, j7, j8, j9⟩, i2⟩
        by_cases hneg : info.totalAmt < 0
        · rw [if_pos hneg]
          exact ⟨i3, i4, fun _ => ⟨mul_nonneg (le_of_lt hc1) i3,
            mul_nonneg (le_of_lt hc1) i4⟩⟩
        · rw [if_neg hneg]
          push_neg at hneg
          obtain ⟨f1, f2⟩ := e3 hneg
          by_cases hpos : 0 < info.totalAmt + amt
          · rw [if_pos hpos]
            exact ⟨div_nonneg (add_nonneg f1 (mul_nonneg (le_of_lt hc1) i3)) (le_of_lt hpos),
                   div_nonneg (add_nonneg f2 (mul_nonneg (le_of_lt hc1) i4)) (le_of_lt hpos),
                   fun _ => ⟨add_nonneg f1 (mul_nonneg (le_of_lt hc1) i3),
                             add_nonneg f2 (mul_nonneg (le_of_lt hc1) i4)⟩⟩
          · rw [if_neg hpos]
            exact ⟨e1, e2, fun _ => ⟨add_nonneg f1 (mul_nonneg (le_of_lt hc1) i3),
                                     add_nonneg f2 (mul_nonneg (le_of_lt hc1) i4)⟩⟩

/-- `处理投资产品赎回` (FIFO) preserves the invariant and never moves a
counter backwards: pool-backed redemptions with a positive pool realize zero
gain (the uncapped fraction makes cost equal the amount), while a non-positive
pool turns the whole amount into formatted profit accruals. -/
theorem fifo_redemption_spec (s : FifoState) (amt : ℚ) (attr : List Char) (t : Option ℕ)
    (h : s.Inv) :
    (s.processRedemption amt attr t).1.Inv ∧
    s.countersLe (s.processRedemption amt attr t).1 := by
  have h' := h
  obtain ⟨h1, h2, h3, h4, h5, h6, h7, h8, h9⟩ := h'
  unfold FifoState.processRedemption
  by_cases hc1 : amt ≤ 0
  · rw [if_pos hc1]
    exact ⟨h, fifo_countersLe_refl s⟩
  · rw [if_neg hc1]
    push_neg at hc1
    cases hpid : parseInvestmentId attr with
    | none => exact ⟨h, fifo_countersLe_refl s⟩
    | some pid =>
      dsimp only
      cases hf : findPool s.pools pid with
      | none =>
          dsimp only
          exact ⟨⟨add_nonneg h1 (le_of_lt hc1), h2,
                  SliceNN_append h3 (SliceNN_single (le_of_lt hc1)),
                  h4, h5, h6, h7, h8, h9⟩, le_refl _, le_refl _, le_refl _, le_refl _⟩
      | some info =>
          dsimp only
          obtain ⟨e1, e2, e3⟩ : PoolF.Inv info := h4 (pid, info) (findPool_mem hf)
          by_cases hz : info.latestPersonalShare = 0 ∧ info.latestCompanyShare = 0
          · rw [if_pos hz]
            exact ⟨h, fifo_countersLe_refl s⟩
          · rw [if_neg hz]
            have hnp : ¬ (0:ℚ) < 0 := lt_irrefl 0
            by_cases hT : 0 < info.totalAmt
            · have hTne : info.totalAmt ≠ 0 := ne_of_gt hT
              have hcost : info.totalAmt * (amt / info.totalAmt) = amt := by
                field_simp
              simp only [if_pos hT, hcost]
              try dsimp only
              simp only [sub_self, if_neg hnp]
              have hv : PoolF.Inv
                  { info with
                    personalAmt := info.personalAmt - info.personalAmt * (amt / info.totalAmt)
                    companyAmt := info.companyAmt - info.companyAmt * (amt / info.totalAmt)
                    totalAmt := info.totalAmt - amt
                    cumRedemption := info.cumRedemption + amt } := by
                refine ⟨e1, e2, fun h0 => ?_⟩
                have hle : amt ≤ info.totalAmt := by
                  have h0' : (0:ℚ) ≤ info.totalAmt - amt := h0
                  linarith
                have hfr1 : amt / info.totalAmt ≤ 1 := (div_le_one hT).mpr hle
                have hfr0 : 0 ≤ amt / info.totalAmt :=
                  div_nonneg (le_of_lt hc1) (le_of_lt hT)
                obtain ⟨hpA, hcA⟩ := e3 (le_of_lt hT)
                constructor
                · nlinarith [mul_nonneg hpA (sub_nonneg.mpr hfr1)]
                · nlinarith [mul_nonneg hcA (sub_nonneg.mpr hfr1)]
              split_ifs with hcb hpb hpb
              · exact ⟨⟨add_nonneg h1 (le_of_lt hpb), add_nonneg h2 (le_of_lt hcb),
                    SliceNN_append (SliceNN_append h3 (SliceNN_single (le_of_lt hpb)))
                      (SliceNN_single (le_of_lt hcb)),
                    setPool_forall h4 hv, h5, h6, h7, h8, h9⟩,
                  le_refl _, le_refl _, le_refl _, le_refl _⟩
              · exact ⟨⟨h1, add_nonneg h2 (le_of_lt hcb),
                    SliceNN_append h3 (SliceNN_single (le_of_lt hcb)),
                    setPool_forall h4 hv, h5, h6, h7, h8, h9⟩,
                  le_refl _, le_refl _, le_refl _, le_refl _⟩
              · exact ⟨⟨add_nonneg h1 (le_of_lt hpb), h2,
                    SliceNN_append h3 (SliceNN_single (le_of_lt hpb)),
                    setPool_forall h4 hv, h5, h6, h7, h8, h9⟩,
                  le_refl _, le_refl _, le_refl _, le_refl _⟩
              · exact ⟨⟨h1, h2, h3, setPool_forall h4 hv, h5, h6, h7, h8, h9⟩,
                  le_refl _, le_refl _, le_refl _, le_refl _⟩
            · simp only [if_neg hT]
              try dsimp only
              simp only [if_pos hc1]
              have hpP : 0 ≤ amt * info.latestPersonalShare :=
                mul_nonneg (le_of_lt hc1) e1
              have hcP : 0 ≤ amt * info.latestCompanyShare :=
                mul_nonneg (le_of_lt hc1) e2
              have hil0 : 0 ≤ (if |amt * info.latestPersonalShare +
                    amt * info.latestCompanyShare| < 1/100000000 then (0:ℚ)
                  else amt * info.latestPersonalShare + amt * info.latestCompanyShare) := by
                split_ifs
                · exact le_refl 0
                · exact add_nonneg hpP hcP
              generalize hG : (if |amt * info.latestPersonalShare +
                    amt * info.latestCompanyShare| < 1/100000000 then (0:ℚ)
                  else amt * info.latestPersonalShare + amt * info.latestCompanyShare)
                = il0 at hil0 ⊢
              have hil : 0 ≤ formatNumber il0 := formatNumber_nonneg hil0
              have hv : PoolF.Inv
                  { info with
                    personalAmt := info.personalAmt - amt * info.latestPersonalShare
                    companyAmt := info.companyAmt - amt * info.latestCompanyShare
                    totalAmt := info.totalAmt - amt
                    cumRedemption := info.cumRedemption + amt } := by
                refine ⟨e1, e2, fun h0 => absurd h0 ?_⟩
                push_neg at hT
                simp only [not_le]
                linarith
              split_ifs with hcb hpb hpb
              · exact ⟨⟨add_nonneg h1 (le_of_lt hpb), add_nonneg h2 (le_of_lt hcb),
                    SliceNN_append (SliceNN_append h3 (SliceNN_single (le_of_lt hpb)))
                      (SliceNN_single (le_of_lt hcb)),
                    setPool_forall h4 hv,
                    h5, h6, formatNumber_formatted (add_nonneg h7.1 hil),
                    formatNumber_formatted (add_nonneg h8.1 hpP),
                    formatNumber_formatted (add_nonneg h9.1 hcP)⟩,
                  le_refl _, le_refl _, formatNumber_accrue_le h8 hpP,
                  formatNumber_accrue_le h9 hcP⟩
              · exact ⟨⟨h1, add_nonneg h2 (le_of_lt hcb),
                    SliceNN_append h3 (SliceNN_single (le_of_lt hcb)),
                    setPool_forall h4 hv,
                    h5, h6, formatNumber_formatted (add_nonneg h7.1 hil),
                    formatNumber_formatted (add_nonneg h8.1 hpP),
                    formatNumber_formatted (add_nonneg h9.1 hcP)⟩,
                  le_refl _, le_refl _, formatNumber_accrue_le h8 hpP,
                  formatNumber_accrue_le h9 hcP⟩
              · exact ⟨⟨add_nonneg h1 (le_of_lt hpb), h2,
                    SliceNN_append h3 (SliceNN_single (le_of_lt hpb)),
                    setPool_forall h4 hv,
                    h5, h6, formatNumber_formatted (add_nonneg h7.1 hil),
                    formatNumber_formatted (add_nonneg h8.1 hpP),
                    formatNumber_formatted (add_nonneg h9.1 hcP)⟩,
                  le_refl _, le_refl _, formatNumber_accrue_le h8 hpP,
                  formatNumber_accrue_le h9 hcP⟩
              · exact ⟨⟨h1, h2, h3, setPool_forall h4 hv,
                    h5, h6, formatNumber_formatted (add_nonneg h7.1 hil),
                    formatNumber_formatted (add_nonneg h8.1 hpP),
                    formatNumber_formatted (add_nonneg h9.1 hcP)⟩,
                  le_refl _, le_refl _, formatNumber_accrue_le h8 hpP,
                  formatNumber_accrue_le h9 hcP⟩

/-- Every single row operation keeps the FIFO invariant and never moves a
counter backwards. -/
theorem fifo_step_spec (s : FifoState) (op : TrackerOp) (h : s.Inv) :
    (s.step op).Inv ∧ s.countersLe (s.step op) := by
  cases op with
  | initBal a o => exact fifo_initBalance_spec s a o h
  | inflow a attr t => exact fifo_inflow_spec s a attr t h
  | outflow a attr t => exact fifo_outflow_spec s a attr t h
  | redemption a attr t => exact fifo_redemption_spec s a attr t h

/-- Folding any row sequence from an invariant state keeps the invariant and
only grows the counters (FIFO). -/
theorem fifo_foldl_spec (ops : List TrackerOp) : ∀ s : FifoState, s.Inv →
    (List.foldl FifoState.step s ops).Inv ∧
    s.countersLe (List.foldl FifoState.step s ops) := by
  induction ops with
  | nil => exact fun s h => ⟨h, fifo_countersLe_refl s⟩
  | cons op rest ih =>
    intro s h
    obtain ⟨h1, h2⟩ := fifo_step_spec s op h
    obtain ⟨h3, h4⟩ := ih (s.step op) h1
    exact ⟨h3, fifo_countersLe_trans h2 h4⟩

/-- `BehaviorAnalyzer.分析行为性质` keeps its two counters formatted and only
grows them. -/
theorem bm_analyze_spec (a : AnalyzerState) (attr : List Char) (pD cD tot : ℚ)
    (hpD : 0 ≤ pD) (hcD : 0 ≤ cD)
    (hm : Formatted a.cumMisuse) (ha : Formatted a.cumAdvance) :
    Formatted (analyzeBehaviorB a attr pD cD tot).1.cumMisuse ∧
    Formatted (analyzeBehaviorB a attr pD cD tot).1.cumAdvance := by
  unfold analyzeBehaviorB
  by_cases h0 : tot ≤ 0
  · rw [if_pos h0]
    exact ⟨hm, ha⟩
  · rw [if_neg h0]
    generalize classifyAttr attr = cls
    cases cls with
    | personal =>
        dsimp only
        split_ifs with hcd
        · exact ⟨hm.accrue hcD, ha⟩
        · exact ⟨hm, ha⟩
    | company =>
        dsimp only
        split_ifs with hpd
        · exact ⟨hm, ha.accrue hpD⟩
        · exact ⟨hm, ha⟩
    | other =>
        dsimp only
        exact ⟨hm, ha⟩

/-- `初始化余额` (Balance-Method) preserves the invariant and never moves a
counter. -/
theorem bm_initBalance_spec (s : BmState) (a : ℚ) (o : Owner) (h : s.Inv) :
    (s.initBalance a o).Inv ∧ s.countersLe (s.initBalance a o) := by
  obtain ⟨h1, h2, h3, h4, h5, h6, h7, h8, h9, h10, h11⟩ := h
  unfold BmState.initBalance BmState.Inv BmState.countersLe
  split_ifs with hc
  · cases o
    · exact ⟨⟨le_of_lt hc.2, h2, h3, h4, h5, h6, h7, h8, h9, h10, h11⟩,
        le_refl _, le_refl _, le_refl _, le_refl _⟩
    · exact ⟨⟨h1, le_of_lt hc.2, h3, h4, h5, h6, h7, h8, h9, h10, h11⟩,
        le_refl _, le_refl _, le_refl _, le_refl _⟩
  · exact ⟨⟨h1, h2, h3, h4, h5, h6, h7, h8, h9, h10, h11⟩,
      le_refl _, le_refl _, le_refl _, le_refl _⟩

/-- `处理资金流入` (Balance-Method) preserves the invariant and never moves a
counter. -/
theorem bm_inflow_spec (s : BmState) (a : ℚ) (attr : List Char) (t : Option ℕ)
    (h : s.Inv) :
    (s.processInflow a attr t).1.Inv ∧ s.countersLe (s.processInflow a attr t).1 := by
  obtain ⟨h1, h2, h3, h4, h5, h6, h7, h8, h9, h10, h11⟩ := h
  unfold BmState.processInflow BmState.Inv BmState.countersLe
  simp only
  split_ifs with hc1 hc2 hc3 hc4 <;> dsimp only
  · exact ⟨⟨h1, h2, h3, h4, h5, h6, h7, h8, h9, h10, h11⟩,
      le_refl _, le_refl _, le_refl _, le_refl _⟩
  · push_neg at hc1
    exact ⟨⟨by linarith, h2, h3, h4, h5, h6, h7, h8, h9, h10, h11⟩,
      le_refl _, le_refl _, le_refl _, le_refl _⟩
  · push_neg at hc1
    exact ⟨⟨h1, by linarith, h3, h4, h5, h6, h7, h8, h9, h10, h11⟩,
      le_refl _, le_refl _, le_refl _, le_refl _⟩
  · push_neg at hc1
    exact ⟨⟨by linarith, by linarith, h3, h4, h5, h6, h7, h8, h9, h10, h11⟩,
      le_refl _, le_refl _, le_refl _, le_refl _⟩
  · push_neg at hc1
    have htotpos : 0 < s.personalBal + s.companyBal :=
      lt_of_le_of_ne (by linarith) (Ne.symm hc4)
    have hps : 0 ≤ s.personalBal / (s.personalBal + s.companyBal) := by positivity
    have hcs : 0 ≤ s.companyBal / (s.personalBal + s.companyBal) := by positivity
    exact ⟨⟨by nlinarith, by nlinarith, h3, h4, h5, h6, h7, h8, h9, h10, h11⟩,
      le_refl _, le_refl _, le_refl _, le_refl _⟩

/-- `_处理普通资金流出` (Balance-Method) preserves the invariant and never
moves a counter backwards; the final re-formatting of both counters fixes
already-formatted values. -/
theorem bm_outflow_ord_spec (s : BmState) (amt : ℚ) (attr : List Char) (t : Option ℕ)
    (hamt : 0 < amt) (h : s.Inv) :
    (s.processOutflowOrdinary amt attr t).1.Inv ∧
    s.countersLe (s.processOutflowOrdinary amt attr t).1 := by
  have h' := h
  obtain ⟨h1, h2, h3, h4, h5, h6, h7, h8, h9, h10, h11⟩ := h'
  unfold BmState.processOutflowOrdinary
  simp only
  by_cases hc2 : s.personalBal + s.companyBal ≤ 0
  · rw [if_pos hc2]
    exact ⟨h, bm_countersLe_refl s⟩
  · rw [if_neg hc2]
    have hpd0 : 0 ≤ min amt s.personalBal := le_min (le_of_lt hamt) h1
    have hcd0 : 0 ≤ min (amt - min amt s.personalBal) s.companyBal :=
      le_min (sub_nonneg.mpr (min_le_left _ _)) h2
    have hcd0' : 0 ≤ min amt s.companyBal := le_min (le_of_lt hamt) h2
    have hpd0' : 0 ≤ min (amt - min amt s.companyBal) s.personalBal :=
      le_min (sub_nonneg.mpr (min_le_left _ _)) h1
    by_cases hP : isPersonalFund attr = true
    · rw [if_pos hP]
      by_cases hcd : 0 < min (amt - min amt s.personalBal) s.companyBal
      · rw [if_pos hcd]
        dsimp only
        obtain ⟨g1, g2⟩ := bm_analyze_spec s.analyzer attr (min amt s.personalBal)
          (min (amt - min amt s.personalBal) s.companyBal) amt hpd0 hcd0 h10 h11
        exact ⟨⟨sub_nonneg.mpr (min_le_right _ _), sub_nonneg.mpr (min_le_right _ _), h3,
            formatNumber_formatted (add_nonneg h4.1 hcd0),
            formatNumber_formatted h5.1, h6, h7, h8, h9, g1, g2⟩,
          formatNumber_accrue_le h4 hcd0,
          le_of_eq (formatNumber_formatted_fixed h5).symm, le_refl _, le_refl _⟩
      · rw [if_neg hcd]
        dsimp only
        obtain ⟨g1, g2⟩ := bm_analyze_spec s.analyzer attr (min amt s.personalBal)
          (min (amt - min amt s.personalBal) s.companyBal) amt hpd0 hcd0 h10 h11
        exact ⟨⟨sub_nonneg.mpr (min_le_right _ _), sub_nonneg.mpr (min_le_right _ _), h3,
            formatNumber_formatted h4.1,
            formatNumber_formatted h5.1, h6, h7, h8, h9, g1, g2⟩,
          le_of_eq (formatNumber_formatted_fixed h4).symm,
          le_of_eq (formatNumber_formatted_fixed h5).symm, le_refl _, le_refl _⟩
    · rw [if_neg hP]
      by_cases hQ : isCompanyFund attr = true
      · rw [if_pos hQ]
        by_cases hpd : 0 < min (amt - min amt s.companyBal) s.personalBal
        · rw [if_pos hpd]
          dsimp only
          obtain ⟨g1, g2⟩ := bm_analyze_spec s.analyzer attr
            (min (amt - min amt s.companyBal) s.personalBal)
            (min amt s.companyBal) amt hpd0' hcd0' h10 h11
          exact ⟨⟨sub_nonneg.mpr (min_le_right _ _), sub_nonneg.mpr (min_le_right _ _), h3,
              formatNumber_formatted h4.1,
              formatNumber_formatted (add_nonneg h5.1 hpd0'), h6, h7, h8, h9, g1, g2⟩,
            le_of_eq (formatNumber_formatted_fixed h4).symm,
            formatNumber_accrue_le h5 hpd0', le_refl _, le_refl _⟩
        · rw [if_neg hpd]
          dsimp only
          obtain ⟨g1, g2⟩ := bm_analyze_spec s.analyzer attr
            (min (amt - min amt s.companyBal) s.personalBal)
            (min amt s.companyBal) amt hpd0' hcd0' h10 h11
          exact ⟨⟨sub_nonneg.mpr (min_le_right _ _), sub_nonneg.mpr (min_le_right _ _), h3,
              formatNumber_formatted h4.1,
              formatNumber_formatted h5.1, h6, h7, h8, h9, g1, g2⟩,
            le_of_eq (formatNumber_formatted_fixed h4).symm,
            le_of_eq (formatNumber_formatted_fixed h5).symm, le_refl _, le_refl _⟩
      · rw [if_neg hQ]
        dsimp only
        obtain ⟨g1, g2⟩ := bm_analyze_spec s.analyzer attr (min amt s.personalBal)
          (min (amt - min amt s.personalBal) s.companyBal) amt hpd0 hcd0 h10 h11
        exact ⟨⟨sub_nonneg.mpr (min_le_right _ _), sub_nonneg.mpr (min_le_right _ _), h3,
            formatNumber_formatted h4.1,
            formatNumber_formatted h5.1, h6, h7, h8, h9, g1, g2⟩,
          le_of_eq (formatNumber_formatted_fixed h4).symm,
          le_of_eq (formatNumber_formatted_fixed h5).symm, le_refl _, le_refl _⟩

/-- `_处理投资产品申购` (Balance-Method) preserves the invariant and never
moves a counter backwards; the pool write keeps the pool invariant. -/
theorem bm_purchase_spec (s : BmState) (amt : ℚ) (attr : List Char) (t : Option ℕ)
    (hamt : 0 < amt) (h : s.Inv) :
    (s.processPurchase amt attr t).1.Inv ∧
    s.countersLe (s.processPurchase amt attr t).1 := by
  have h' := h
  obtain ⟨h1, h2, h3, h4, h5, h6, h7, h8, h9, h10, h11⟩ := h'
  unfold BmState.processPurchase BmState.updatePool
  simp only [if_pos hamt]
  have hpd0 : 0 ≤ min amt s.personalBal := le_min (le_of_lt hamt) h1
  have hcd0 : 0 ≤ min (amt - min amt s.personalBal) s.companyBal :=
    le_min (sub_nonneg.mpr (min_le_left _ _)) h2
  have hInfo : PoolB.Inv ((findPoolB s.pools attr).getD PoolB.fresh) :=
    findPoolB_getD_inv h3
  generalize hE : (findPoolB s.pools attr).getD PoolB.fresh = info at hInfo ⊢
  obtain ⟨e1, e2, e3, e4, e5⟩ := hInfo
  have htotpos : (0:ℚ) < info.totalAmt + amt := by linarith
  have hpfr : 0 ≤ min amt s.personalBal / amt := div_nonneg hpd0 (le_of_lt hamt)
  have hcfr : 0 ≤ min (amt - min amt s.personalBal) s.companyBal / amt :=
    div_nonneg hcd0 (le_of_lt hamt)
  have hv : PoolB.Inv
      { info with
        totalAmt := info.totalAmt + amt
        cumPurchase := info.cumPurchase + amt
        cumPersonalAmt := info.cumPersonalAmt + amt * (min amt s.personalBal / amt)
        cumCompanyAmt := info.cumCompanyAmt +
          amt * (min (amt - min amt s.personalBal) s.companyBal / amt)
        personalShare := (info.cumPersonalAmt + amt * (min amt s.personalBal / amt)) /
          (info.totalAmt + amt)
        companyShare := (info.cumCompanyAmt +
          amt * (min (amt - min amt s.personalBal) s.companyBal / amt)) /
          (info.totalAmt + amt) } :=
    ⟨add_nonneg e1 (le_of_lt hamt),
     div_nonneg (add_nonneg e4 (mul_nonneg (le_of_lt hamt) hpfr)) (le_of_lt htotpos),
     div_nonneg (add_nonneg e5 (mul_nonneg (le_of_lt hamt) hcfr)) (le_of_lt htotpos),
     add_nonneg e4 (mul_nonneg (le_of_lt hamt) hpfr),
     add_nonneg e5 (mul_nonneg (le_of_lt hamt) hcfr)⟩
  by_cases hcd : 0 < min (amt - min amt s.personalBal) s.companyBal
  · rw [if_pos hcd]
    dsimp only
    rw [hE]
    rw [if_pos htotpos]
    exact ⟨⟨sub_nonneg.mpr (min_le_right _ _), sub_nonneg.mpr (min_le_right _ _),
        setPoolB_forall h3 hv,
        formatNumber_formatted (add_nonneg h4.1 hcd0), h5, h6, h7, h8, h9, h10, h11⟩,
      formatNumber_accrue_le h4 hcd0, le_refl _, le_refl _, le_refl _⟩
  · rw [if_neg hcd]
    dsimp only
    rw [hE]
    rw [if_pos htotpos]
    exact ⟨⟨sub_nonneg.mpr (min_le_right _ _), sub_nonneg.mpr (min_le_right _ _),
        setPoolB_forall h3 hv,
        h4, h5, h6, h7, h8, h9, h10, h11⟩,
      le_refl _, le_refl _, le_refl _, le_refl _⟩

/-- `处理资金流出` (Balance-Method dispatch) preserves the invariant and never
moves a counter backwards. -/
theorem bm_outflow_spec (s : BmState) (amt : ℚ) (attr : List Char) (t : Option ℕ)
    (h : s.Inv) :
    (s.processOutflow amt attr t).1.Inv ∧
    s.countersLe (s.processOutflow amt attr t).1 := by
  unfold BmState.processOutflow
  by_cases hc1 : amt ≤ 0
  · rw [if_pos hc1]
    exact ⟨h, bm_countersLe_refl s⟩
  · rw [if_neg hc1]
    push_neg at hc1
    by_cases hI : isInvestmentProduct attr = true
    · rw [if_pos hI]
      exact bm_purchase_spec s amt attr t hc1 h
    · rw [if_neg hI]
      exact bm_outflow_ord_spec s amt attr t hc1 h

/-- `处理投资产品赎回` (Balance-Method) preserves the invariant and never
moves a counter backwards: principal returns and positive overage accrue as
formatted additions, and the capped redemption fraction keeps the pool
invariant. -/
theorem bm_redemption_spec (s : BmState) (amt : ℚ) (attr : List Char) (t : Option ℕ)
    (h : s.Inv) :
    (s.processRedemption amt attr t).1.Inv ∧
    s.countersLe (s.processRedemption amt attr t).1 := by
  have h' := h
  obtain ⟨h1, h2, h3, h4, h5, h6, h7, h8, h9, h10, h11⟩ := h'
  unfold BmState.processRedemption
  by_cases hc1 : amt ≤ 0
  · rw [if_pos hc1]
    exact ⟨h, bm_countersLe_refl s⟩
  · rw [if_neg hc1]
    push_neg at hc1
    by_cases hI : isInvestmentProduct attr = false
    · rw [if_pos hI]
      exact ⟨h, bm_countersLe_refl s⟩
    · rw [if_neg hI]
      cases hf : findPoolB s.pools attr with
      | none =>
          dsimp only
          exact ⟨⟨add_nonneg h1 (le_of_lt hc1), h2, h3, h4, h5, h6, h7, h8, h9, h10, h11⟩,
            le_refl _, le_refl _, le_refl _, le_refl _⟩
      | some info =>
          dsimp only
          obtain ⟨e1, e2, e3, e4, e5⟩ : PoolB.Inv info := h3 (attr, info) (findPoolB_mem hf)
          have hpB : 0 ≤ amt * info.personalShare := mul_nonneg (le_of_lt hc1) e2
          have hcB : 0 ≤ amt * info.companyShare := mul_nonneg (le_of_lt hc1) e3
          have hprof0 : 0 ≤ max 0 (amt - min amt info.totalAmt) := le_max_left 0 _
          have hpp0 : 0 ≤ max 0 (amt - min amt info.totalAmt) * info.personalShare :=
            mul_nonneg hprof0 e2
          have hcp0 : 0 ≤ max 0 (amt - min amt info.totalAmt) * info.companyShare :=
            mul_nonneg hprof0 e3
          by_cases hT : 0 < info.totalAmt
          · simp only [if_pos hT]
            have hfr0 : 0 ≤ min (amt / info.totalAmt) 1 :=
              le_min (div_nonneg (le_of_lt hc1) (le_of_lt hT)) zero_le_one
            have hfr1 : min (amt / info.totalAmt) 1 ≤ 1 := min_le_right _ _
            have hbc0 : 0 ≤ info.totalAmt * info.companyShare * min (amt / info.totalAmt) 1 :=
              mul_nonneg (mul_nonneg (le_of_lt hT) e3) hfr0
            have hbp0 : 0 ≤ info.totalAmt * info.personalShare * min (amt / info.totalAmt) 1 :=
              mul_nonneg (mul_nonneg (le_of_lt hT) e2) hfr0
            have hcpa : 0 ≤ info.cumPersonalAmt -
                info.cumPersonalAmt * min (amt / info.totalAmt) 1 := by
              nlinarith [mul_nonneg e4 (sub_nonneg.mpr hfr1)]
            have hcca : 0 ≤ info.cumCompanyAmt -
                info.cumCompanyAmt * min (amt / info.totalAmt) 1 := by
              nlinarith [mul_nonneg e5 (sub_nonneg.mpr hfr1)]
            have htot : 0 ≤ info.totalAmt - min amt info.totalAmt :=
              sub_nonneg.mpr (min_le_right _ _)
            have hv : PoolB.Inv (if 0 < info.totalAmt - min amt info.totalAmt then
                { info with
                  cumPersonalAmt := info.cumPersonalAmt -
                    info.cumPersonalAmt * min (amt / info.totalAmt) 1
                  cumCompanyAmt := info.cumCompanyAmt -
                    info.cumCompanyAmt * min (amt / info.totalAmt) 1
                  totalAmt := info.totalAmt - min amt info.totalAmt
                  cumRedemption := info.cumRedemption + amt
                  personalShare := (info.cumPersonalAmt -
                    info.cumPersonalAmt * min (amt / info.totalAmt) 1) /
                    (info.totalAmt - min amt info.totalAmt)
                  companyShare := (info.cumCompanyAmt -
                    info.cumCompanyAmt * min (amt / info.totalAmt) 1) /
                    (info.totalAmt - min amt info.totalAmt) }
              else
                { info with
                  cumPersonalAmt := info.cumPersonalAmt -
                    info.cumPersonalAmt * min (amt / info.totalAmt) 1
                  cumCompanyAmt := info.cumCompanyAmt -
                    info.cumCompanyAmt * min (amt / info.totalAmt) 1
                  totalAmt := info.totalAmt - min amt info.totalAmt
                  cumRedemption := info.cumRedemption + amt }) := by
              split_ifs with h3p
              · exact ⟨htot, div_nonneg hcpa (le_of_lt h3p), div_nonneg hcca (le_of_lt h3p),
                  hcpa, hcca⟩
              · exact ⟨htot, e2, e3, hcpa, hcca⟩
            by_cases hbc : 0 < info.totalAmt * info.companyShare * min (amt / info.totalAmt) 1
            · rw [if_pos hbc]
              by_cases hrp : 0 < info.personalShare
              · rw [if_pos hrp]
                by_cases hpr : 0 < max 0 (amt - min amt info.totalAmt)
                · rw [if_pos hpr]
                  exact ⟨⟨add_nonneg h1 hpB, add_nonneg h2 hcB, setPoolB_forall h3 hv,
                      h4, h5, formatNumber_formatted (add_nonneg h6.1 hbc0),
                      formatNumber_formatted (add_nonneg h7.1 hbp0),
                      formatNumber_formatted (add_nonneg h8.1 hpp0),
                      formatNumber_formatted (add_nonneg h9.1 hcp0), h10, h11⟩,
                    le_refl _, le_refl _, formatNumber_accrue_le h8 hpp0,
                    formatNumber_accrue_le h9 hcp0⟩
                · rw [if_neg hpr]
                  exact ⟨⟨add_nonneg h1 hpB, add_nonneg h2 hcB, setPoolB_forall h3 hv,
                      h4, h5, formatNumber_formatted (add_nonneg h6.1 hbc0),
                      formatNumber_formatted (add_nonneg h7.1 hbp0),
                      h8, h9, h10, h11⟩,
                    le_refl _, le_refl _, le_refl _, le_refl _⟩
              · rw [if_neg hrp]
                by_cases hpr : 0 < max 0 (amt - min amt info.totalAmt)
                · rw [if_pos hpr]
                  exact ⟨⟨add_nonneg h1 hpB, add_nonneg h2 hcB, setPoolB_forall h3 hv,
                      h4, h5, formatNumber_formatted (add_nonneg h6.1 hbc0), h7,
                      formatNumber_formatted (add_nonneg h8.1 hpp0),
                      formatNumber_formatted (add_nonneg h9.1 hcp0), h10, h11⟩,
                    le_refl _, le_refl _, formatNumber_accrue_le h8 hpp0,
                    formatNumber_accrue_le h9 hcp0⟩
                · rw [if_neg hpr]
                  exact ⟨⟨add_nonneg h1 hpB, add_nonneg h2 hcB, setPoolB_forall h3 hv,
                      h4, h5, formatNumber_formatted (add_nonneg h6.1 hbc0), h7,
                      h8, h9, h10, h11⟩,
                    le_refl _, le_refl _, le_refl _, le_refl _⟩
            · rw [if_neg hbc]
              by_cases hpr : 0 < max 0 (amt - min amt info.totalAmt)
              · rw [if_pos hpr]
                exact ⟨⟨add_nonneg h1 hpB, add_nonneg h2 hcB, setPoolB_forall h3 hv,
                    h4, h5, h6, h7,
                    formatNumber_formatted (add_nonneg h8.1 hpp0),
                    formatNumber_formatted (add_nonneg h9.1 hcp0), h10, h11⟩,
                  le_refl _, le_refl _, formatNumber_accrue_le h8 hpp0,
                  formatNumber_accrue_le h9 hcp0⟩
              · rw [if_neg hpr]
                exact ⟨⟨add_nonneg h1 hpB, add_nonneg h2 hcB, setPoolB_forall h3 hv,
                    h4, h5, h6, h7, h8, h9, h10, h11⟩,
                  le_refl _, le_refl _, le_refl _, le_refl _⟩
          · simp only [if_neg hT]
            have hv : PoolB.Inv { info with cumRedemption := info.cumRedemption + amt } :=
              ⟨e1, e2, e3, e4, e5⟩
            by_cases hpr : 0 < max 0 (amt - min amt info.totalAmt)
            · rw [if_pos hpr]
              exact ⟨⟨add_nonneg h1 hpB, add_nonneg h2 hcB, setPoolB_forall h3 hv,
                  h4, h5, h6, h7,
                  formatNumber_formatted (add_nonneg h8.1 hpp0),
                  formatNumber_formatted (add_nonneg h9.1 hcp0), h10, h11⟩,
                le_refl _, le_refl _, formatNumber_accrue_le h8 hpp0,
                formatNumber_accrue_le h9 hcp0⟩
            · rw [if_neg hpr]
              exact ⟨⟨add_nonneg h1 hpB, add_nonneg h2 hcB, setPoolB_forall h3 hv,
                  h4, h5, h6, h7, h8, h9, h10, h11⟩,
                le_refl _, le_refl _, le_refl _, le_refl _⟩

/-- Every single row operation keeps the Balance-Method invariant and never
moves a counter backwards. -/
theorem bm_step_spec (s : BmState) (op : TrackerOp) (h : s.Inv) :
    (s.step op).Inv ∧ s.countersLe (s.step op) := by
  cases op with
  | initBal a o => exact bm_initBalance_spec s a o h
  | inflow a attr t => exact bm_inflow_spec s a attr t h
  | outflow a attr t => exact bm_outflow_spec s a attr t h
  | redemption a attr t => exact bm_redemption_spec s a attr t h

/-- Folding any row sequence from an invariant state keeps the invariant and
only grows the counters (Balance-Method). -/
theorem bm_foldl_spec (ops : List TrackerOp) : ∀ s : BmState, s.Inv →
    (List.foldl BmState.step s ops).Inv ∧
    s.countersLe (List.foldl BmState.step s ops) := by
  induction ops with
  | nil => exact fun s h => ⟨h, bm_countersLe_refl s⟩
  | cons op rest ih =>
    intro s h
    obtain ⟨h1, h2⟩ := bm_step_spec s op h
    obtain ⟨h3, h4⟩ := ih (s.step op) h1
    exact ⟨h3, bm_countersLe_trans h2 h4⟩

/-- C4: across the emitted rows of any run, in both tracker variants, the
cumulative misuse counter, the cumulative advance counter, and the personal and
company profit-share counters never decrease from one row to the next: after
any prefix of the row operations each of the four counters is bounded by its
value after any extension of that prefix (every accrual adds a non-negative
amount, and the two-decimal rounding applied when recording never reduces a
previously recorded value). -/
theorem C4_counters_monotone (ops more : List TrackerOp) :
    FifoState.countersLe (FifoState.run ops) (FifoState.run (ops ++ more)) ∧
    BmState.countersLe (BmState.run ops) (BmState.run (ops ++ more)) := by
  unfold FifoState.run BmState.run
  rw [List.foldl_append, List.foldl_append]
  exact ⟨(fifo_foldl_spec more _ (fifo_foldl_spec ops _ fifo_init_inv).1).2,
         (bm_foldl_spec more _ (bm_foldl_spec ops _ bm_init_inv).1).2⟩

theorem mem_clusterIdx {df : List TxRow} {t : ℕ} {p : ℕ} :
    p ∈ clusterIdx df t ↔ p < df.length ∧ (rowAt df p).ts = t := by
  unfold clusterIdx
  simp [List.mem_filter, List.mem_range]

theorem clusterIdx_sorted (df : List TxRow) (t : ℕ) :
    (clusterIdx df t).Pairwise (· < ·) :=
  (List.pairwise_lt_range df.length).filter _

theorem foldl_min_le_seed : ∀ (xs : List ℕ) (x : ℕ), xs.foldl min x ≤ x := by
  intro xs
  induction xs with
  | nil => intro x; exact le_refl x
  | cons y ys ih => intro x; exact le_trans (ih (min x y)) (min_le_left x y)

theorem foldl_min_le : ∀ (xs : List ℕ) (x p : ℕ), p = x ∨ p ∈ xs → xs.foldl min x ≤ p := by
  intro xs
  induction xs with
  | nil =>
    intro x p hp
    rcases hp with rfl | hmem
    · exact le_refl p
    · exact absurd hmem (List.not_mem_nil p)
  | cons y ys ih =>
    intro x p hp
    rcases hp with rfl | hp'
    · exact le_trans (foldl_min_le_seed ys (min p y)) (min_le_left p y)
    · rcases List.mem_cons.mp hp' with rfl | hmem
      · exact le_trans (foldl_min_le_seed ys (min x p)) (min_le_right x p)
      · exact ih (min x y) p (Or.inr hmem)

theorem foldl_min_mem : ∀ (xs : List ℕ) (x : ℕ), xs.foldl min x ∈ x :: xs := by
  intro xs
  induction xs with
  | nil => intro x; exact List.mem_singleton.mpr rfl
  | cons y ys ih =>
    intro x
    rw [List.foldl_cons]
    have h := ih (min x y)
    rcases List.mem_cons.mp h with heq | hmem
    · rw [heq]
      rcases min_choice x y with hxy | hxy
      · rw [hxy]; exact List.mem_cons_self x (y :: ys)
      · rw [hxy]; exact List.mem_cons_of_mem x (List.mem_cons_self y ys)
    · exact List.mem_cons_of_mem x (List.mem_cons_of_mem y hmem)

theorem foldl_max_ge_seed : ∀ (xs : List ℕ) (x : ℕ), x ≤ xs.foldl max x := by
  intro xs
  induction xs with
  | nil => intro x; exact le_refl x
  | cons y ys ih => intro x; exact le_trans (le_max_left x y) (ih (max x y))

theorem foldl_max_ge : ∀ (xs : List ℕ) (x p : ℕ), p = x ∨ p ∈ xs → p ≤ xs.foldl max x := by
  intro xs
  induction xs with
  | nil =>
    intro x p hp
    rcases hp with rfl | hmem
    · exact le_refl p
    · exact absurd hmem (List.not_mem_nil p)
  | cons y ys ih =>
    intro x p hp
    rcases hp with rfl | hp'
    · exact le_trans (le_max_left p y) (foldl_max_ge_seed ys (max p y))
    · rcases List.mem_cons.mp hp' with rfl | hmem
      · exact le_trans (le_max_right x p) (foldl_max_ge_seed ys (max x p))
      · exact ih (max x y) p (Or.inr hmem)

theorem foldl_max_mem : ∀ (xs : List ℕ) (x : ℕ), xs.foldl max x ∈ x :: xs := by
  intro xs
  induction xs with
  | nil => intro x; exact List.mem_singleton.mpr rfl
  | cons y ys ih =>
    intro x
    rw [List.foldl_cons]
    have h := ih (max x y)
    rcases List.mem_cons.mp h with heq | hmem
    · rw [heq]
      rcases max_choice x y with hxy | hxy
      · rw [hxy]; exact List.mem_cons_self x (y :: ys)
      · rw [hxy]; exact List.mem_cons_of_mem x (List.mem_cons_self y ys)
    · exact List.mem_cons_of_mem x (List.mem_cons_of_mem y hmem)

theorem minOf_le {l : List ℕ} {p : ℕ} (hp : p ∈ l) : minOf l ≤ p := by
  cases l with
  | nil => exact absurd hp (List.not_mem_nil p)
  | cons x xs =>
    rcases List.mem_cons.mp hp with rfl | hmem
    · exact foldl_min_le xs p p (Or.inl rfl)
    · exact foldl_min_le xs x p (Or.inr hmem)

theorem maxOf_ge {l : List ℕ} {p : ℕ} (hp : p ∈ l) : p ≤ maxOf l := by
  cases l with
  | nil => exact absurd hp (List.not_mem_nil p)
  | cons x xs =>
    rcases List.mem_cons.mp hp with rfl | hmem
    · exact foldl_max_ge xs p p (Or.inl rfl)
    · exact foldl_max_ge xs x p (Or.inr hmem)

theorem minOf_mem {l : List ℕ} (h : l ≠ []) : minOf l ∈ l := by
  cases l with
  | nil => exact absurd rfl h
  | cons x xs => exact foldl_min_mem xs x

theorem maxOf_mem {l : List ℕ} (h : l ≠ []) : maxOf l ∈ l := by
  cases l with
  | nil => exact absurd rfl h
  | cons x xs => exact foldl_max_mem xs x

theorem insertNat_of_le : ∀ (l : List ℕ) (x : ℕ), (∀ y ∈ l, x ≤ y) → insertNat x l = x :: l := by
  intro l x h
  cases l with
  | nil => rfl
  | cons y ys =>
    unfold insertNat
    rw [if_pos (h y (List.mem_cons_self y ys))]

theorem sortNat_of_sorted : ∀ (l : List ℕ), l.Pairwise (· ≤ ·) → sortNat l = l := by
  intro l
  induction l with
  | nil => intro _; rfl
  | cons x xs ih =>
    intro h
    unfold sortNat
    rw [ih (List.Pairwise.of_cons h)]
    exact insertNat_of_le xs x (fun y hy => (List.pairwise_cons.mp h).1 y hy)

theorem sorted_interval_eq_range' : ∀ (l : List ℕ), l.Pairwise (· < ·) →
    ∀ lo hi, (∀ q, q ∈ l ↔ lo ≤ q ∧ q ≤ hi) → l = List.range' lo (hi + 1 - lo) := by
  intro l
  induction l with
  | nil =>
    intro _ lo hi hmem
    by_cases hlh : lo ≤ hi
    · exact absurd ((hmem lo).mpr ⟨le_refl lo, hlh⟩) (List.not_mem_nil lo)
    · rw [show hi + 1 - lo = 0 by omega]
      rfl
  | cons x xs ih =>
    intro hpw lo hi hmem
    have hx : lo ≤ x ∧ x ≤ hi := (hmem x).mp (List.mem_cons_self x xs)
    have hlomem : lo ∈ x :: xs := (hmem lo).mpr ⟨le_refl lo, le_trans hx.1 hx.2⟩
    have hxlo : x = lo := by
      rcases List.mem_cons.mp hlomem with h | h
      · exact h.symm
      · have := (List.pairwise_cons.mp hpw).1 lo h
        omega
    subst hxlo
    have hxs : ∀ q, q ∈ xs ↔ x + 1 ≤ q ∧ q ≤ hi := by
      intro q
      constructor
      · intro hq
        have h2 := (hmem q).mp (List.mem_cons_of_mem x hq)
        have h3 := (List.pairwise_cons.mp hpw).1 q hq
        omega
      · intro hq
        rcases List.mem_cons.mp ((hmem q).mpr ⟨by omega, hq.2⟩) with rfl | h
        · omega
        · exact h
    rw [ih (List.Pairwise.of_cons hpw) (x + 1) hi hxs]
    rw [show hi + 1 - x = (hi + 1 - (x + 1)) + 1 by omega]
    rfl

theorem writeAll_length : ∀ (ps : List (ℕ × TxRow)) (df : List TxRow),
    (writeAll df ps).length = df.length := by
  intro ps
  induction ps with
  | nil => intro df; rfl
  | cons pr rest ih =>
    intro df
    obtain ⟨p, r⟩ := pr
    unfold writeAll
    rw [ih (df.set p r), List.length_set]

theorem rowAt_set_ne (df : List TxRow) (q p : ℕ) (r : TxRow) (h : q ≠ p) :
    rowAt (df.set q r) p = rowAt df p := by
  unfold rowAt
  rw [List.getD_eq_getElem?_getD, List.getD_eq_getElem?_getD, List.getElem?_set_ne h]

theorem rowAt_set_self (df : List TxRow) (p : ℕ) (r : TxRow) (h : p < df.length) :
    rowAt (df.set p r) p = r := by
  unfold rowAt
  rw [List.getD_eq_getElem?_getD, List.getElem?_set_self h]
  rfl

theorem rowAt_writeAll_notmem : ∀ (ps : List (ℕ × TxRow)) (df : List TxRow) (p : ℕ),
    (∀ pr ∈ ps, pr.1 ≠ p) → rowAt (writeAll df ps) p = rowAt df p := by
  intro ps
  induction ps with
  | nil => intro df p _; rfl
  | cons pr rest ih =>
    intro df p h
    obtain ⟨q, r⟩ := pr
    unfold writeAll
    rw [ih (df.set q r) p (fun x hx => h x (List.mem_cons_of_mem _ hx))]
    exact rowAt_set_ne df q p r (h (q, r) (List.mem_cons_self _ _))

theorem rowAt_writeAll_get : ∀ (ps : List (ℕ × TxRow)) (df : List TxRow) (k : ℕ)
    (hk : k < ps.length), (ps.map Prod.fst).Nodup → (ps.get ⟨k, hk⟩).1 < df.length →
    rowAt (writeAll df ps) (ps.get ⟨k, hk⟩).1 = (ps.get ⟨k, hk⟩).2 := by
  intro ps
  induction ps with
  | nil =>
    intro df k hk
    exact absurd hk (by simp)
  | cons pr rest ih =>
    intro df k hk hnd hlen
    obtain ⟨q, r⟩ := pr
    have hnd' : q ∉ rest.map Prod.fst ∧ (rest.map Prod.fst).Nodup := by
      rw [List.map_cons] at hnd
      exact List.nodup_cons.mp hnd
    cases k with
    | zero =>
      unfold writeAll
      simp only [List.get] at hlen ⊢
      rw [rowAt_writeAll_notmem rest (df.set q r) q ?notm]
      · exact rowAt_set_self df q r hlen
      case notm =>
        intro pr hpr heq
        exact hnd'.1 (List.mem_map.mpr ⟨pr, hpr, heq⟩)
    | succ k' =>
      unfold writeAll
      simp only [List.get] at hlen ⊢
      exact ih (df.set q r) k' (Nat.lt_of_succ_lt_succ hk) hnd'.2
        (by rw [List.length_set]; exact hlen)

theorem chainRows_first : ∀ (rs : List TxRow) (bal : ℚ) (h0 : 0 < rs.length),
    ChainRows bal rs → contOKBal bal (rs.get ⟨0, h0⟩) := by
  intro rs bal h0 hc
  cases rs with
  | nil => exact absurd h0 (lt_irrefl 0)
  | cons r rest => exact hc.1

theorem chainRows_step : ∀ (rs : List TxRow) (bal : ℚ) (k : ℕ) (hk : k + 1 < rs.length),
    ChainRows bal rs →
    contOKBal (rs.get ⟨k, Nat.lt_of_succ_lt hk⟩).bal (rs.get ⟨k + 1, hk⟩) := by
  intro rs
  induction rs with
  | nil =>
    intro bal k hk
    exact absurd hk (by simp)
  | cons r rest ih =>
    intro bal k hk hc
    cases k with
    | zero =>
      cases rest with
      | nil => exact absurd hk (by simp)
      | cons r2 rest2 => exact hc.2.1
    | succ k' => exact ih r.bal k' (Nat.lt_of_succ_lt_succ hk) hc.2

theorem findFirstOK_spec : ∀ (cands : List (ℕ × TxRow)) (bal : ℚ) (i : ℕ) (r : TxRow)
    (rest : List (ℕ × TxRow)), findFirstOK bal cands = some (i, r, rest) →
    contOKBal bal r ∧ cands.Perm ((i, r) :: rest) := by
  intro cands
  induction cands with
  | nil =>
    intro bal i r rest h
    simp only [findFirstOK] at h
    exact Option.noConfusion h
  | cons c cs ih =>
    intro bal i r rest h
    obtain ⟨j, s⟩ := c
    simp only [findFirstOK] at h
    by_cases hok : contOKBal bal s
    · rw [if_pos hok] at h
      simp only [Option.some.injEq, Prod.mk.injEq] at h
      obtain ⟨rfl, rfl, rfl⟩ := h
      exact ⟨hok, List.Perm.refl _⟩
    · rw [if_neg hok] at h
      cases hrec : findFirstOK bal cs with
      | none =>
          rw [hrec] at h
          exact Option.noConfusion h
      | some trip =>
          obtain ⟨i2, r2, rest2⟩ := trip
          rw [hrec] at h
          dsimp only at h
          simp only [Option.some.injEq, Prod.mk.injEq] at h
          obtain ⟨h1, h2, h3⟩ := h
          subst h1
          subst h2
          subst h3
          obtain ⟨hok2, hperm⟩ := ih bal i2 r2 rest2 hrec
          refine ⟨hok2, ?_⟩
          exact (hperm.cons (j, s)).trans (List.Perm.swap (i2, r2) (j, s) rest2)

theorem greedyAux_spec (df : List TxRow) :
    ∀ (fuel : ℕ) (cands : List (ℕ × TxRow)) (bal : ℚ) (order : List ℕ),
    (∀ pr ∈ cands, pr.2 = rowAt df pr.1) →
    greedyAux fuel cands bal = some order →
    order.Perm (cands.map Prod.fst) ∧ ChainRows bal (order.map (rowAt df)) := by
  intro fuel
  induction fuel with
  | zero =>
    intro cands bal order hmem hrun
    cases cands with
    | nil =>
      simp only [greedyAux, Option.some.injEq] at hrun
      subst hrun
      exact ⟨List.Perm.refl _, trivial⟩
    | cons c cs =>
        simp only [greedyAux] at hrun
        exact Option.noConfusion hrun
  | succ fuel ih =>
    intro cands bal order hmem hrun
    cases cands with
    | nil =>
      simp only [greedyAux, Option.some.injEq] at hrun
      subst hrun
      exact ⟨List.Perm.refl _, trivial⟩
    | cons c cs =>
      simp only [greedyAux] at hrun
      cases hff : findFirstOK bal (c :: cs) with
      | none =>
          rw [hff] at hrun
          exact Option.noConfusion hrun
      | some trip =>
          obtain ⟨i, r, rest⟩ := trip
          rw [hff] at hrun
          dsimp only at hrun
          cases hrec : greedyAux fuel rest r.bal with
          | none =>
              rw [hrec] at hrun
              exact Option.noConfusion hrun
          | some order2 =>
              rw [hrec] at hrun
              dsimp only at hrun
              simp only [Option.some.injEq] at hrun
              subst hrun
              obtain ⟨hok, hperm⟩ := findFirstOK_spec (c :: cs) bal i r rest hff
              have hmem2 : ∀ pr ∈ rest, pr.2 = rowAt df pr.1 := fun pr hpr =>
                hmem pr (hperm.mem_iff.mpr (List.mem_cons_of_mem _ hpr))
              obtain ⟨hp2, hch2⟩ := ih rest r.bal order2 hmem2 hrec
              have hri : r = rowAt df i :=
                hmem (i, r) (hperm.mem_iff.mpr (List.mem_cons_self _ _))
              constructor
              · exact (hp2.cons i).trans ((hperm.map Prod.fst).symm)
              · rw [List.map_cons]
                exact ⟨hri ▸ hok, hri ▸ hch2⟩

set_option maxHeartbeats 1000000 in
/-- `_attempt_reorder_fix` on a timestamp-contiguous frame: the repaired frame
keeps the length and the timestamp of every position, rows outside the repaired
cluster are untouched, and balance continuity holds across the whole cluster
including its entry pair. -/
theorem attemptReorderFix_spec (df : List TxRow) (i : ℕ) (fixed : List TxRow)
    (hc : ClustersContiguous df) (hil : i < df.length)
    (hfix : attemptReorderFix df i = some fixed) :
    fixed.length = df.length ∧
    (∀ p, (rowAt fixed p).ts = (rowAt df p).ts) ∧
    ∃ lo hi, 1 ≤ lo ∧ lo ≤ i ∧ i ≤ hi ∧
      (∀ p, p < lo ∨ hi < p → rowAt fixed p = rowAt df p) ∧
      (∀ j, lo ≤ j → j ≤ hi → contOK (rowAt fixed (j - 1)) (rowAt fixed j)) := by
  unfold attemptReorderFix at hfix
  simp only at hfix
  set idx := clusterIdx df (rowAt df i).ts with hidx
  by_cases h1 : idx.length ≤ 1
  · rw [if_pos h1] at hfix
    exact Option.noConfusion hfix
  · rw [if_neg h1] at hfix
    cases hbo : greedyOrderSearch df idx with
    | none =>
        rw [hbo] at hfix
        exact Option.noConfusion hfix
    | some best =>
        rw [hbo] at hfix
        dsimp only at hfix
        by_cases hne : best ≠ idx
        · rw [if_pos hne] at hfix
          simp only [Option.some.injEq] at hfix
          subst hfix
          unfold greedyOrderSearch at hbo
          rw [if_neg h1] at hbo
          by_cases h0 : minOf idx = 0
          · rw [if_pos h0] at hbo
            by_cases htest : testOrderValidity df idx = true
            · rw [if_pos htest] at hbo
              simp only [Option.some.injEq] at hbo
              exact absurd hbo.symm hne
            · rw [if_neg htest] at hbo
              exact Option.noConfusion hbo
          · rw [if_neg h0] at hbo
            unfold greedySearch at hbo
            have hmemI : ∀ p, p ∈ idx ↔ p < df.length ∧ (rowAt df p).ts = (rowAt df i).ts := by
              intro p
              rw [hidx]
              exact mem_clusterIdx
            have hsorted : idx.Pairwise (· < ·) := by
              rw [hidx]
              exact clusterIdx_sorted df _
            have hiI : i ∈ idx := (hmemI i).mpr ⟨hil, rfl⟩
            have hne0 : idx ≠ [] := List.ne_nil_of_mem hiI
            have hloI : minOf idx ∈ idx := minOf_mem hne0
            have hhiI : maxOf idx ∈ idx := maxOf_mem hne0
            have hlo_le_i : minOf idx ≤ i := minOf_le hiI
            have hi_le_hi : i ≤ maxOf idx := maxOf_ge hiI
            have hhiL : maxOf idx < df.length := ((hmemI _).mp hhiI).1
            have htslo : (rowAt df (minOf idx)).ts = (rowAt df i).ts := ((hmemI _).mp hloI).2
            have htshi : (rowAt df (maxOf idx)).ts = (rowAt df i).ts := ((hmemI _).mp hhiI).2
            have hinterval : ∀ q, q ∈ idx ↔ minOf idx ≤ q ∧ q ≤ maxOf idx := by
              intro q
              constructor
              · exact fun hq => ⟨minOf_le hq, maxOf_ge hq⟩
              · intro hq
                have hts : (rowAt df q).ts = (rowAt df (minOf idx)).ts :=
                  hc (maxOf idx) hhiL q hq.2 (minOf idx) hq.1 (htslo.trans htshi.symm)
                exact (hmemI q).mpr ⟨lt_of_le_of_lt hq.2 hhiL, hts.trans htslo⟩
            have hrange : idx = List.range' (minOf idx) (maxOf idx + 1 - minOf idx) :=
              sorted_interval_eq_range' idx hsorted _ _ hinterval
            have hlo1 : 1 ≤ minOf idx := Nat.one_le_iff_ne_zero.mpr h0
            have hn_idx : idx.length = maxOf idx + 1 - minOf idx := by
              conv_lhs => rw [hrange]
              rw [List.length_range']
            have hcond : ∀ pr ∈ idx.map (fun p => (p, rowAt df p)), pr.2 = rowAt df pr.1 := by
              intro pr hpr
              obtain ⟨p, hp, rfl⟩ := List.mem_map.mp hpr
              rfl
            obtain ⟨hperm, hchain⟩ := greedyAux_spec df _ _ _ best hcond hbo
            have hmapfst : (idx.map (fun p => (p, rowAt df p))).map Prod.fst = idx := by
              rw [List.map_map]
              exact List.map_id' idx
            have hpermI : best.Perm idx := hmapfst ▸ hperm
            have hbl : best.length = idx.length := hpermI.length_eq
            set rs := best.map (rowAt df) with hrs
            have hlen_rs : rs.length = idx.length := by
              rw [hrs, List.length_map, hbl]
            have hrsl : rs.length = maxOf idx + 1 - minOf idx := by rw [hlen_rs, hn_idx]
            have hreb : rebuildDf df idx best = writeAll df (idx.zip rs) := by
              unfold rebuildDf
              rw [sortNat_of_sorted idx (hsorted.imp le_of_lt)]
            have hzip_len : (idx.zip rs).length = idx.length := by
              rw [List.length_zip, hlen_rs, Nat.min_self]
            have hfst : (idx.zip rs).map Prod.fst = idx :=
              List.map_fst_zip idx rs (le_of_eq hlen_rs.symm)
            have hnd : ((idx.zip rs).map Prod.fst).Nodup := by
              rw [hfst, hrange]
              exact List.nodup_range' _ _
            have hout : ∀ p, p < minOf idx ∨ maxOf idx < p →
                rowAt (writeAll df (idx.zip rs)) p = rowAt df p := by
              intro p hp
              apply rowAt_writeAll_notmem
              intro pr hpr
              have hm1 : pr.1 ∈ idx := by
                rw [← hfst]
                exact List.mem_map_of_mem Prod.fst hpr
              have hm2 := (hinterval pr.1).mp hm1
              omega
            have hread : ∀ k (hk : k < idx.length),
                rowAt (writeAll df (idx.zip rs)) (minOf idx + k) =
                  rs.get ⟨k, by rw [hlen_rs]; exact hk⟩ := by
              intro k hk
              have hk2 : k < (idx.zip rs).length := by rw [hzip_len]; exact hk
              have hgz : (idx.zip rs).get ⟨k, hk2⟩ =
                  (idx.get ⟨k, hk⟩, rs.get ⟨k, by rw [hlen_rs]; exact hk⟩) := by
                simp only [List.get_eq_getElem, List.getElem_zip]
              have hgi : idx.get ⟨k, hk⟩ = minOf idx + k := by
                have hq : idx[k]? = some (minOf idx + k) := by
                  conv_lhs => rw [hrange]
                  rw [List.getElem?_range' (minOf idx) 1 (by omega)]
                  rw [Nat.one_mul]
                simp only [List.get_eq_getElem]
                exact List.getElem_eq_iff.mpr hq
              have hb : ((idx.zip rs).get ⟨k, hk2⟩).1 < df.length := by
                rw [hgz]
                dsimp only
                rw [hgi]
                omega
              have hw := rowAt_writeAll_get (idx.zip rs) df k hk2 hnd hb
              rw [hgz] at hw
              dsimp only at hw
              rw [hgi] at hw
              exact hw
            have hts_all : ∀ p,
                (rowAt (writeAll df (idx.zip rs)) p).ts = (rowAt df p).ts := by
              intro p
              by_cases hp : p < minOf idx ∨ maxOf idx < p
              · rw [hout p hp]
              · push_neg at hp
                obtain ⟨hp1, hp2⟩ := hp
                have hk : p - minOf idx < idx.length := by omega
                have he := hread (p - minOf idx) hk
                rw [show minOf idx + (p - minOf idx) = p by omega] at he
                rw [he]
                have hmem1 : rs.get ⟨p - minOf idx, by rw [hlen_rs]; exact hk⟩ ∈
                    List.map (rowAt df) best :=
                  List.get_mem rs _ _
                obtain ⟨pb, hpb, hpeq⟩ := List.mem_map.mp hmem1
                rw [← hpeq]
                have hpbI : pb ∈ idx := hpermI.mem_iff.mp hpb
                have ht1 : (rowAt df pb).ts = (rowAt df i).ts := ((hmemI pb).mp hpbI).2
                have ht2 : (rowAt df p).ts = (rowAt df i).ts :=
                  ((hmemI p).mp ((hinterval p).mpr ⟨hp1, hp2⟩)).2
                rw [ht1, ht2]
            have hchain_pairs : ∀ j, minOf idx ≤ j → j ≤ maxOf idx →
                contOK (rowAt (writeAll df (idx.zip rs)) (j - 1))
                  (rowAt (writeAll df (idx.zip rs)) j) := by
              intro j hj1 hj2
              by_cases hjlo : j = minOf idx
              · rw [hjlo]
                rw [hout (minOf idx - 1) (Or.inl (by omega))]
                have h0r : 0 < rs.length := by omega
                have he := hread 0 (by omega)
                rw [Nat.add_zero] at he
                rw [he]
                exact chainRows_first rs _ h0r hchain
              · have hlj : minOf idx < j := by omega
                have hkb : (j - 1 - minOf idx) + 1 < rs.length := by omega
                have e1 := hread (j - 1 - minOf idx) (by omega)
                have e2 := hread (j - 1 - minOf idx + 1) (by omega)
                rw [show minOf idx + (j - 1 - minOf idx) = j - 1 by omega] at e1
                rw [show minOf idx + (j - 1 - minOf idx + 1) = j by omega] at e2
                rw [e1, e2]
                exact chainRows_step rs _ (j - 1 - minOf idx) hkb hchain
            rw [hreb]
            exact ⟨writeAll_length _ df, hts_all, minOf idx, maxOf idx, hlo1, hlo_le_i,
              hi_le_hi, hout, hchain_pairs⟩
        · rw [if_neg hne] at hfix
          exact Option.noConfusion hfix

/-- If the row-by-row loop of the validator succeeds on a timestamp-contiguous
frame with a fully checked prefix, the frame it returns satisfies balance
continuity everywhere and keeps the input length. -/
theorem validateLoop_sound : ∀ (fuel : ℕ) (df : List TxRow) (i cnt : ℕ)
    (out : List TxRow) (n : ℕ),
    ClustersContiguous df → 1 ≤ i → df.length < fuel + i →
    (∀ j, 1 ≤ j → j < i → j < df.length → contOK (rowAt df (j - 1)) (rowAt df j)) →
    validateLoop fuel df i cnt = some (out, n) →
    AllContOK out ∧ out.length = df.length := by
  intro fuel
  induction fuel with
  | zero =>
    intro df i cnt out n hc hi hfe hpre hrun
    simp only [validateLoop, Option.some.injEq, Prod.mk.injEq] at hrun
    obtain ⟨rfl, rfl⟩ := hrun
    exact ⟨fun j hj1 hjl => hpre j hj1 (by omega) hjl, rfl⟩
  | succ fuel ih =>
    intro df i cnt out n hc hi hfe hpre hrun
    simp only [validateLoop] at hrun
    by_cases hlen : i < df.length
    · rw [if_pos hlen] at hrun
      by_cases hok : contOK (rowAt df (i - 1)) (rowAt df i)
      · rw [if_pos hok] at hrun
        refine ih df (i + 1) cnt out n hc (by omega) (by omega) ?_ hrun
        intro j hj1 hji hjlen
        by_cases hji2 : j < i
        · exact hpre j hj1 hji2 hjlen
        · rw [show j = i by omega]
          exact hok
      · rw [if_neg hok] at hrun
        cases hfx : attemptReorderFix df i with
        | none =>
            rw [hfx] at hrun
            exact Option.noConfusion hrun
        | some fixed =>
            rw [hfx] at hrun
            dsimp only at hrun
            by_cases hok2 : contOK (rowAt fixed (i - 1)) (rowAt fixed i)
            · rw [if_pos hok2] at hrun
              obtain ⟨hfl, hts, lo, hi2, hlo1, hloi, hihi, hunch, hinner⟩ :=
                attemptReorderFix_spec df i fixed hc hlen hfx
              have hcfix : ClustersContiguous fixed := by
                intro r hr q hq p hp h1
                rw [hts p, hts r] at h1
                rw [hts q, hts p]
                exact hc r (by rw [← hfl]; exact hr) q hq p hp h1
              have hres := ih fixed (i + 1) (cnt + 1) out n hcfix (by omega)
                (by rw [hfl]; omega) ?_ hrun
              · exact ⟨hres.1, hres.2.trans hfl⟩
              · intro j hj1 hji hjlen
                by_cases hjlo : j < lo
                · rw [hunch (j - 1) (Or.inl (by omega)), hunch j (Or.inl hjlo)]
                  exact hpre j hj1 (by omega) (by rw [← hfl]; exact hjlen)
                · exact hinner j (by omega) (by omega)
            · rw [if_neg hok2] at hrun
              exact Option.noConfusion hrun
    · rw [if_neg hlen] at hrun
      simp only [Option.some.injEq, Prod.mk.injEq] at hrun
      obtain ⟨rfl, rfl⟩ := hrun
      exact ⟨fun j hj1 hjl => hpre j hj1 (by omega) hjl, rfl⟩

/-- On a frame that already satisfies balance continuity everywhere, the
validator loop touches nothing: it returns the frame unchanged with the repair
counter it was given. -/
theorem validateLoop_clean : ∀ (fuel : ℕ) (df : List TxRow) (i cnt : ℕ),
    AllContOK df → 1 ≤ i → validateLoop fuel df i cnt = some (df, cnt) := by
  intro fuel
  induction fuel with
  | zero => intro df i cnt _ _; rfl
  | succ fuel ih =>
    intro df i cnt hall hi
    simp only [validateLoop]
    by_cases hlen : i < df.length
    · rw [if_pos hlen, if_pos (hall i hi hlen)]
      exact ih df (i + 1) cnt hall (by omega)
    · rw [if_neg hlen]

/-- C7: if the ledger-integrity validator succeeds on a frame whose
equal-timestamp rows are contiguous (as the pipeline's sort guarantees),
possibly repairing intra-timestamp order on the way, then running the
validator again on the repaired output performs zero reorder repairs and
reports the output as valid, returning it unchanged. -/
theorem C7_revalidation_idempotent (df out : List TxRow) (n : ℕ)
    (hc : ClustersContiguous df) (h : validateFlow df = some (out, n)) :
    validateFlow out = some (out, 0) := by
  unfold validateFlow at h ⊢
  obtain ⟨hall, _⟩ := validateLoop_sound df.length df 1 0 out n hc (le_refl 1)
    (by omega) (fun j hj1 hji _ => absurd hji (by omega)) h
  exact validateLoop_clean out.length out 1 0 hall (le_refl 1)

/-- End-to-end check of C7 on a concrete frame: the validator repairs the
swapped timestamp-1 rows of `c7rows` in one reorder, and re-running it on the
repaired frame performs zero repairs and returns it unchanged. -/
theorem C7_revalidation_idempotent_witness :
    ClustersContiguous c7rows ∧ validateFlow c7rows = some (c7fixed, 1) ∧
    validateFlow c7fixed = some (c7fixed, 0) := by
  have h : validateFlow c7rows = some (c7fixed, 1) := by
    show validateLoop (2 + 1) c7rows 1 0 = some (c7fixed, 1)
    norm_num [validateLoop, contOK, contOKBal, rowAt, c7rows, attemptReorderFix, clusterIdx,
      greedyOrderSearch, greedySearch, greedyAux, findFirstOK, rebuildDf, writeAll, sortNat,
      insertNat, minOf, maxOf, c7fixed, List.range, List.range.loop]
  exact ⟨by decide, h, C7_revalidation_idempotent c7rows c7fixed 1 (by decide) h⟩
